import Mathlib

/-!
Verification development for the `mips_optimizer` repository
(`src/mips_optimizer/src/main.rs`), a RISC-V peephole optimizer built on an
external equality-saturation engine.

The Rust source is shallowly embedded below.  Rust strings are modelled as
`List Char` (`Str`); fallible operations (assertions, `unwrap`) are modelled
with `Option` / an explicit `Outcome` type.  Components of the external
equality-saturation engine (pattern matcher, rule scheduler, e-graph,
extractor), which the repository does not implement, are modelled from the
specification; every such definition is marked `Modelled from the spec:` in
its doc comment.
-/

set_option autoImplicit false
set_option maxRecDepth 100000

namespace MipsOpt

/-- Rust strings are modelled as lists of characters. -/
abbrev Str := List Char

/-- Whitespace test used by Rust's `trim` / `split_whitespace`
(`char::is_whitespace`; the inputs at issue are ASCII). -/
def isWs (c : Char) : Bool := c.isWhitespace

/-- `str::trim_start`. -/
def trimStart (s : Str) : Str := s.dropWhile isWs

/-- `str::trim_end`. -/
def trimEnd (s : Str) : Str := (s.reverse.dropWhile isWs).reverse

/-- `str::trim`. -/
def trimStr (s : Str) : Str := trimEnd (trimStart s)

/-- `str::starts_with`. -/
def startsWith (s pat : Str) : Bool := pat.isPrefixOf s

/-- `str::ends_with`. -/
def endsWith (s pat : Str) : Bool := pat.isSuffixOf s

/-- `s.matches(c).count()`. -/
def countChar (s : Str) (c : Char) : Nat := (s.filter (· = c)).length

/-- `str::split_whitespace`, fuelled: each step consumes at least one
character, so fuel `s.length` (as supplied by `splitWs`) never runs out. -/
def splitWsF : Nat → Str → List Str
  | 0, _ => []
  | _, [] => []
  | fuel + 1, c :: rest =>
    if isWs c then splitWsF fuel rest
    else (c :: rest.takeWhile (fun d => ¬ isWs d)) :: splitWsF fuel (rest.dropWhile (fun d => ¬ isWs d))

/-- `str::split_whitespace`: maximal runs of non-whitespace characters. -/
def splitWs (s : Str) : List Str := splitWsF s.length s

/-- `Vec::join(sep)`. -/
def joinWith (sep : Str) : List Str → Str
  | [] => []
  | [s] => s
  | s :: rest => s ++ sep ++ joinWith sep rest

/-- `"(seq"` as a character list. -/
def seqOpen : Str := "(seq".data

/-- `"nop"` as a character list. -/
def nopStr : Str := "nop".data

/--
`clean_sequence` from `main.rs` (lines 49-66).  The two `assert!` calls are
modelled as `Option`: `none` means the Rust code panics.  On success it
returns `"(seq " ++ (whitespace-tokens of the inner text minus "nop",
joined by spaces) ++ ")"`.
-/
def clean_sequence (seq : Str) : Option Str :=
  let s := trimStr seq
  if ¬ startsWith s seqOpen then none
  else if ¬ endsWith s [')'] then none
  else
    let inner := s.drop seqOpen.length
    let inner := trimStart inner
    let inner := inner.dropLast
    let cleaned := joinWith [' '] ((splitWs inner).filter (fun instr => instr ≠ nopStr))
    some (seqOpen ++ [' '] ++ cleaned ++ [')'])

/-- The loop state of `remove_nops` (`cleaned_lines`, `seq_buffer`, `in_seq`,
`open_parens_count`).  The parenthesis counter is modelled as `Int`; in the
Rust source it is an unsigned machine integer, but on every execution path
relevant to the claims below it stays non-negative. -/
structure NopState where
  cleanedLines : List Str
  seqBuffer : Str
  inSeq : Bool
  openParens : Int
  deriving Repr, DecidableEq

/-- Initial state of the `remove_nops` loop. -/
def initNopState : NopState := ⟨[], [], false, 0⟩

/-- One iteration of the `for line in input.lines()` loop of `remove_nops`
(lines 11-39).  `none` models a panic inside `clean_sequence`. -/
def nopStep (st : NopState) (line : Str) : Option NopState :=
  let trimmed := trimStr line
  if trimmed = nopStr then some st
  else if startsWith trimmed seqOpen then
    some { st with
      inSeq := true
      seqBuffer := st.seqBuffer ++ trimmed ++ [' ']
      openParens := st.openParens + countChar trimmed '(' - countChar trimmed ')' }
  else if st.inSeq then
    let buf := st.seqBuffer ++ trimmed ++ [' ']
    let opc := st.openParens + countChar trimmed '(' - countChar trimmed ')'
    if opc = 0 then
      (clean_sequence buf).map fun c =>
        { st with cleanedLines := st.cleanedLines ++ [c], seqBuffer := [], inSeq := false,
                  openParens := 0 }
    else
      some { st with seqBuffer := buf, openParens := opc }
  else
    some { st with cleanedLines := st.cleanedLines ++ [trimmed] }

/-- The whole `for` loop of `remove_nops`, threading panics. -/
def processLines (lines : List Str) : Option NopState :=
  lines.foldlM nopStep initNopState

/-- Rust `str::lines()`: split on `'\n'`, dropping a trailing empty segment
and a trailing `'\r'` on each line. -/
def linesOf (s : Str) : List Str :=
  let segs := (s.splitOn '\n').map fun l => if l.getLast? = some '\r' then l.dropLast else l
  match segs.getLast? with
  | some [] => segs.dropLast
  | _ => segs

/--
`remove_nops` from `main.rs` (lines 5-47).  `none` models a panic
(an assertion failure inside `clean_sequence`).
-/
def remove_nops (input : Str) : Option Str := do
  let st ← processLines (linesOf input)
  if st.inSeq then
    let c ← clean_sequence st.seqBuffer
    pure (joinWith ['\n'] (st.cleanedLines ++ [c]))
  else
    pure (joinWith ['\n'] st.cleanedLines)

/-! ### S-expression parsing

egg parses a `RecExpr` or a `Pattern` from a string by reading one
s-expression and mapping each node through the language's `from_op`. -/

inductive Tok where
  | lp
  | rp
  | atom (s : Str)
  deriving Repr, DecidableEq

/-- Character class ending an atom token. -/
def tokBreak (d : Char) : Bool := d == '(' || d == ')' || isWs d

/-- Tokenizer, fuelled: each step consumes at least one character, so fuel
`s.length` (as supplied by `tokenize`) never runs out. -/
def tokenizeF : Nat → Str → List Tok
  | 0, _ => []
  | _, [] => []
  | fuel + 1, c :: rest =>
    if c = '(' then Tok.lp :: tokenizeF fuel rest
    else if c = ')' then Tok.rp :: tokenizeF fuel rest
    else if isWs c then tokenizeF fuel rest
    else
      Tok.atom (c :: rest.takeWhile (fun d => !tokBreak d)) ::
        tokenizeF fuel (rest.dropWhile (fun d => !tokBreak d))

/-- Tokenizer for s-expressions: parentheses are single tokens, whitespace
separates, everything else accumulates into atoms. -/
def tokenize (s : Str) : List Tok := tokenizeF s.length s

inductive Sexp where
  | atom (s : Str)
  | list (xs : List Sexp)

/-- Stack-based folding of a token stream into the list of top-level
s-expressions (`none` on unbalanced parentheses). -/
def runToks : List Tok → List Sexp → List (List Sexp) → Option (List Sexp)
  | [], cur, [] => some cur.reverse
  | [], _, _ :: _ => none
  | Tok.lp :: ts, cur, stk => runToks ts [] (cur :: stk)
  | Tok.rp :: _, _, [] => none
  | Tok.rp :: ts, cur, f :: fs => runToks ts (Sexp.list cur.reverse :: f) fs
  | Tok.atom a :: ts, cur, stk => runToks ts (Sexp.atom a :: cur) stk

/-- Parse a whole string as exactly one s-expression (egg's `FromStr`
consumes the entire input and rejects empty input). -/
def parseOneSexp (s : Str) : Option Sexp :=
  match runToks (tokenize s) [] [] with
  | some [e] => some e
  | _ => none

/-! ### The `RiscvLang` language (`define_language!`, main.rs lines 69-126) -/

/-- The operator tags declared with three `Id` children. -/
def ops3 : List Str :=
  (["add", "sub", "mul", "div", "divu", "rem", "remu", "sll", "srl", "sra",
    "and", "or", "xor", "slt", "sltu",
    "addi", "andi", "ori", "xori", "slti", "sltiu", "slli", "srli", "srai",
    "beq", "bne", "blt", "bge", "bltu", "bgeu"] : List String).map String.data

/-- The operator tags declared with two `Id` children. -/
def ops2 : List Str :=
  (["lui", "auipc", "jal", "jalr", "lw", "sw", "csrw"] : List String).map String.data

/-- `"seq"` as a character list. -/
def seqStr : Str := "seq".data

/--
The `from_op` generated by `define_language!` for `RiscvLang`, reduced to
the acceptance question "does some variant accept operator string `op`
with `n` children?".  Variants are tried in declaration order:
the string-literal variants require their exact arity; `Var(Symbol)`
accepts any operator string with zero children (`Symbol`'s `FromStr` is
infallible) and precedes `Num`, `Seq` and `Nop` in the declaration, so
every zero-child operator parses (as a `Var` leaf); `"seq" = Seq(Vec<Id>)`
accepts any number of children.  No variant accepts the operator `"Num"`
or `"+"` with children.
-/
def riscvAccepts (op : Str) (n : Nat) : Bool :=
  (n == 3 && ops3.contains op) || (n == 2 && ops2.contains op) || n == 0 || op == seqStr

/-! ### Terms (egg `RecExpr<RiscvLang>`)

A node is an operator tag plus ordered children (spec §3 "Node").  The
payload-carrying leaves (`Var(Symbol)`, `Num(i32)`) are recorded through
their display string as zero-children operators, which is exactly how they
parse and print. -/

inductive Term where
  | node (op : Str) (args : List Term)

mutual
/-- Map a parsed s-expression through `from_op` (egg's `RecExpr` parsing). -/
def sexpToTerm : Sexp → Option Term
  | Sexp.atom s => if riscvAccepts s 0 then some (Term.node s []) else none
  | Sexp.list [] => none
  | Sexp.list (Sexp.atom op :: args) => do
      let ts ← sexpListToTerms args
      if riscvAccepts op ts.length then some (Term.node op ts) else none
  | Sexp.list (Sexp.list _ :: _) => none

def sexpListToTerms : List Sexp → Option (List Term)
  | [] => some []
  | x :: xs => do
      let t ← sexpToTerm x
      let ts ← sexpListToTerms xs
      some (t :: ts)
end

/-- `input_content.parse::<RecExpr<RiscvLang>>()` (main.rs line 133). -/
def parseRecExpr (s : Str) : Option Term := (parseOneSexp s).bind sexpToTerm

mutual
/-- Display of a term, matching egg's s-expression printing of `RecExpr`. -/
def printTerm : Term → Str
  | Term.node op [] => op
  | Term.node op args => '(' :: (op ++ printArgs args ++ [')'])

def printArgs : List Term → Str
  | [] => []
  | t :: ts => ' ' :: (printTerm t ++ printArgs ts)
end

mutual
/-- `astSize`: the node count of a term — egg's `AstSize` cost of the
extracted expression, "1 per node" (spec §6 cost function). -/
def astSize : Term → Nat
  | Term.node _ args => 1 + astSizeList args

/-- Sum of `astSize` over a list of terms. -/
def astSizeList : List Term → Nat
  | [] => 0
  | t :: ts => astSize t + astSizeList ts
end

/-! ### Patterns

egg parses each side of a `rw!` rule as a `Pattern<RiscvLang>`: atoms
starting with `'?'` (and longer than one character) become pattern
variables, every other node goes through `from_op` exactly as for terms.

Modelled from the spec (§3 "Rewrite rule", §4.3): a pattern variable whose
name ends in `'*'` is a sequence wildcard binding a contiguous run inside a
variable-arity child list; a child list may carry at most two sequence
wildcards, one anchoring the head run and one the tail run
(`head* fixed… tail*`).  The engine that interprets them is external to the
repository, so the wildcard structure is made explicit in the pattern type:
`pseq op lead fixed trail`. -/

inductive Pat where
  | pvar (x : Str)
  | pnode (op : Str) (children : List Pat)
  | pseq (op : Str) (lead : Option Str) (fixed : List Pat) (trail : Option Str)

/-- Sequence wildcard marker: a variable name ending in `'*'`. -/
def isWildName (s : Str) : Bool := s.getLast? == some '*'

/-- Is this pattern a sequence wildcard variable? -/
def isWildPat : Pat → Bool
  | Pat.pvar x => isWildName x
  | _ => false

/-- egg's `Var` form: an atom starting with `'?'` of length at least 2. -/
def isVarAtom (s : Str) : Bool := s.head? == some '?' && s.length > 1

/-- Arrange the children of a pattern node: if sequence wildcards occur they
must be a head and/or tail wildcard around a wildcard-free fixed middle
(spec §4.3); otherwise the node is a plain fixed-arity pattern. -/
def shapeWilds (op : Str) (ps : List Pat) : Option Pat :=
  if ps.any isWildPat then
    let hd := match ps with
      | Pat.pvar x :: rest => if isWildName x then (some x, rest) else (none, ps)
      | _ => (none, ps)
    let tl := match hd.2.getLast? with
      | some (Pat.pvar x) =>
          if isWildName x then (hd.2.dropLast, some x) else (hd.2, (none : Option Str))
      | _ => (hd.2, none)
    if tl.1.any isWildPat then none
    else some (Pat.pseq op hd.1 tl.1 tl.2)
  else some (Pat.pnode op ps)

mutual
/-- Map a parsed s-expression through `from_op` with egg's `'?'`-variable
rule (egg's `Pattern` parsing), then arrange sequence wildcards. -/
def sexpToPat : Sexp → Option Pat
  | Sexp.atom s =>
    if isVarAtom s then some (Pat.pvar s)
    else if riscvAccepts s 0 then some (Pat.pnode s []) else none
  | Sexp.list [] => none
  | Sexp.list (Sexp.atom op :: args) => do
      let ps ← sexpListToPats args
      if riscvAccepts op ps.length then shapeWilds op ps else none
  | Sexp.list (Sexp.list _ :: _) => none

def sexpListToPats : List Sexp → Option (List Pat)
  | [] => some []
  | x :: xs => do
      let p ← sexpToPat x
      let ps ← sexpListToPats xs
      some (p :: ps)
end

/-- Parse one side of a `rw!` rule, as egg's `Pattern<RiscvLang>: FromStr`
does at rule-construction time. -/
def parsePattern (s : Str) : Option Pat := (parseOneSexp s).bind sexpToPat


/-! ### The rule table (main.rs lines 137-260) -/

/-- A rewrite rule: an identifying name, a left pattern and a right pattern
(spec §3 "Rewrite rule"). -/
structure Rule where
  name : Str
  lhs : Pat
  rhs : Pat

/-- Build a rule from string name and explicit patterns. -/
def mkRule (n : String) (l r : Pat) : Rule := ⟨n.data, l, r⟩

/-- Pattern variable shorthand. -/
def pv (s : String) : Pat := Pat.pvar s.data

/-- Leaf (zero-children operator) pattern shorthand. -/
def pl (s : String) : Pat := Pat.pnode s.data []

/-- Fixed-arity pattern node shorthand. -/
def pn (s : String) (ps : List Pat) : Pat := Pat.pnode s.data ps

/-- Sequence pattern with wildcard runs shorthand. -/
def psq (s : String) (lead : Option String) (ps : List Pat) (trail : Option String) : Pat :=
  Pat.pseq s.data (lead.map String.data) ps (trail.map String.data)

/-- The 59 `rw!` invocations of `main` (lines 137-260): rule name,
left-hand side string and right-hand side string, verbatim and in source
order. -/
def ruleStrs : List (String × String × String) := [
  ("add-zero", "(add ?dest ?src x0)", "(addi ?dest ?src 0)"),
  ("add-zero-commute", "(add ?dest x0 ?src)", "(addi ?dest ?src 0)"),
  ("sub-zero", "(sub ?dest ?src x0)", "(addi ?dest ?src 0)"),
  ("mul-zero", "(mul ?dest ?src x0)", "(addi ?dest x0 0)"),
  ("div-zero", "(div ?dest x0 ?src)", "(addi ?dest x0 0)"),
  ("rem-zero-num", "(rem ?dest x0 ?src)", "(addi ?dest x0 0)"),
  ("and-zero", "(and ?dest ?src x0)", "(addi ?dest x0 0)"),
  ("and-zero-commute", "(and ?dest x0 ?src)", "(addi ?dest x0 0)"),
  ("or-zero", "(or ?dest ?src x0)", "(addi ?dest ?src 0)"),
  ("or-zero-commute", "(or ?dest x0 ?src)", "(addi ?dest ?src 0)"),
  ("xor-same", "(xor ?dest ?src ?src)", "(addi ?dest x0 0)"),
  ("slt-same", "(slt ?dest ?src ?src)", "(addi ?dest x0 0)"),
  ("sltu-same", "(sltu ?dest ?src ?src)", "(addi ?dest x0 0)"),
  ("sub-same", "(sub ?dest ?src ?src)", "(addi ?dest x0 0)"),
  ("sll-zero", "(sll ?dest ?src x0)", "(addi ?dest ?src 0)"),
  ("srl-zero", "(srl ?dest ?src x0)", "(addi ?dest ?src 0)"),
  ("sra-zero", "(sra ?dest ?src x0)", "(addi ?dest ?src 0)"),
  ("beq-same", "(beq ?src ?src ?label)", "(jal x0 ?label)"),
  ("bne-same", "(bne ?src ?src ?label)", "nop"),
  ("blt-same", "(blt ?src ?src ?label)", "nop"),
  ("bge-same", "(bge ?src ?src ?label)", "(jal x0 ?label)"),
  ("bltu-same", "(bltu ?src ?src ?label)", "nop"),
  ("bgeu-same", "(bgeu ?src ?src ?label)", "(jal x0 ?label)"),
  ("lw-zero-reg", "(lw x0 ?addr)", "nop"),
  ("sw-zero-reg", "(sw x0 ?addr)", "nop"),
  ("remove-nop", "(seq ?instrs* nop ?rest*)", "(seq ?instrs* ?rest*)"),
  ("addi-zero-self", "(addi ?dest ?dest 0)", "nop"),
  ("replace-top-empty-seq", "(seq)", "nop"),
  ("add-zero-dest", "(add x0 ?s1 ?s2)", "nop"),
  ("sub-zero-dest", "(sub x0 ?s1 ?s2)", "nop"),
  ("mul-zero-dest", "(mul x0 ?s1 ?s2)", "nop"),
  ("div-zero-dest", "(div x0 ?s1 ?s2)", "nop"),
  ("divu-zero-dest", "(divu x0 ?s1 ?s2)", "nop"),
  ("rem-zero-dest", "(rem x0 ?s1 ?s2)", "nop"),
  ("remu-zero-dest", "(remu x0 ?s1 ?s2)", "nop"),
  ("sll-zero-dest", "(sll x0 ?s1 ?s2)", "nop"),
  ("srl-zero-dest", "(srl x0 ?s1 ?s2)", "nop"),
  ("sra-zero-dest", "(sra x0 ?s1 ?s2)", "nop"),
  ("and-zero-dest", "(and x0 ?s1 ?s2)", "nop"),
  ("or-zero-dest", "(or x0 ?s1 ?s2)", "nop"),
  ("xor-zero-dest", "(xor x0 ?s1 ?s2)", "nop"),
  ("slt-zero-dest", "(slt x0 ?s1 ?s2)", "nop"),
  ("sltu-zero-dest", "(sltu x0 ?s1 ?s2)", "nop"),
  ("addi-zero-dest", "(addi x0 ?s ?i)", "nop"),
  ("andi-zero-dest", "(andi x0 ?s ?i)", "nop"),
  ("ori-zero-dest", "(ori x0 ?s ?i)", "nop"),
  ("xori-zero-dest", "(xori x0 ?s ?i)", "nop"),
  ("slti-zero-dest", "(slti x0 ?s ?i)", "nop"),
  ("sltiu-zero-dest", "(sltiu x0 ?s ?i)", "nop"),
  ("lui-zero-dest", "(lui x0 ?i)", "nop"),
  ("auipc-zero-dest", "(auipc x0 ?i)", "nop"),
  ("slli-zero-dest", "(slli x0 ?s ?i)", "nop"),
  ("srli-zero-dest", "(srli x0 ?s ?i)", "nop"),
  ("xor-zero", "(xor ?dest ?src x0)", "(addi ?dest ?src 0)"),
  ("xor-zero-commute", "(xor ?dest x0 ?src)", "(addi ?dest ?src 0)"),
  ("fold-consecutive-addi", "(seq (addi ?dest ?src (Num ?c1)) (addi ?dest ?dest (Num ?c2)) ?rest*)", "(seq (addi ?dest ?src (Num (+ ?c1 ?c2))) ?rest*)"),
  ("fold-sub-one", "(sub ?dest ?src (Num 1))", "(addi ?dest ?src -1)"),
  ("fold-addi-then-subi", "(seq (addi ?dest ?src (Num ?c1)) (addi ?dest ?dest (Num ?c2)) ?rest*)", "(seq ?rest*)"),
  ("fold-lw-sw-same-address", "(seq (lw ?r ?addr) (sw ?r ?addr) ?rest*)", "(seq ?rest*)")
]

/--
Rule-table construction as `main` performs it: each `rw!` invocation
parses both of its pattern strings at runtime and `unwrap`s the results, in
source order, while the `rules` array is being built.  `none` models the
panic on the first pattern string that does not parse.
-/
def buildRules : Option (List Rule) :=
  ruleStrs.mapM fun r => do
    let l ← parsePattern r.2.1.data
    let rh ← parsePattern r.2.2.data
    pure (⟨r.1.data, l, rh⟩ : Rule)

/--
The declared rule table at face value: the same 59 rules with their pattern
strings transliterated directly into pattern form (`?x` variables, `?x*`
sequence wildcards, everything else an operator node).  For the three rules
whose strings egg cannot parse (`fold-consecutive-addi`, `fold-sub-one`,
`fold-addi-then-subi`, see `buildRules`), this records the pattern the
declaration plainly denotes, with `Num` and `+` as child-bearing operators.
-/
def ruleTableFace : List Rule := [
  mkRule "add-zero"
    (pn "add" [pv "?dest", pv "?src", pl "x0"])
    (pn "addi" [pv "?dest", pv "?src", pl "0"]),
  mkRule "add-zero-commute"
    (pn "add" [pv "?dest", pl "x0", pv "?src"])
    (pn "addi" [pv "?dest", pv "?src", pl "0"]),
  mkRule "sub-zero"
    (pn "sub" [pv "?dest", pv "?src", pl "x0"])
    (pn "addi" [pv "?dest", pv "?src", pl "0"]),
  mkRule "mul-zero"
    (pn "mul" [pv "?dest", pv "?src", pl "x0"])
    (pn "addi" [pv "?dest", pl "x0", pl "0"]),
  mkRule "div-zero"
    (pn "div" [pv "?dest", pl "x0", pv "?src"])
    (pn "addi" [pv "?dest", pl "x0", pl "0"]),
  mkRule "rem-zero-num"
    (pn "rem" [pv "?dest", pl "x0", pv "?src"])
    (pn "addi" [pv "?dest", pl "x0", pl "0"]),
  mkRule "and-zero"
    (pn "and" [pv "?dest", pv "?src", pl "x0"])
    (pn "addi" [pv "?dest", pl "x0", pl "0"]),
  mkRule "and-zero-commute"
    (pn "and" [pv "?dest", pl "x0", pv "?src"])
    (pn "addi" [pv "?dest", pl "x0", pl "0"]),
  mkRule "or-zero"
    (pn "or" [pv "?dest", pv "?src", pl "x0"])
    (pn "addi" [pv "?dest", pv "?src", pl "0"]),
  mkRule "or-zero-commute"
    (pn "or" [pv "?dest", pl "x0", pv "?src"])
    (pn "addi" [pv "?dest", pv "?src", pl "0"]),
  mkRule "xor-same"
    (pn "xor" [pv "?dest", pv "?src", pv "?src"])
    (pn "addi" [pv "?dest", pl "x0", pl "0"]),
  mkRule "slt-same"
    (pn "slt" [pv "?dest", pv "?src", pv "?src"])
    (pn "addi" [pv "?dest", pl "x0", pl "0"]),
  mkRule "sltu-same"
    (pn "sltu" [pv "?dest", pv "?src", pv "?src"])
    (pn "addi" [pv "?dest", pl "x0", pl "0"]),
  mkRule "sub-same"
    (pn "sub" [pv "?dest", pv "?src", pv "?src"])
    (pn "addi" [pv "?dest", pl "x0", pl "0"]),
  mkRule "sll-zero"
    (pn "sll" [pv "?dest", pv "?src", pl "x0"])
    (pn "addi" [pv "?dest", pv "?src", pl "0"]),
  mkRule "srl-zero"
    (pn "srl" [pv "?dest", pv "?src", pl "x0"])
    (pn "addi" [pv "?dest", pv "?src", pl "0"]),
  mkRule "sra-zero"
    (pn "sra" [pv "?dest", pv "?src", pl "x0"])
    (pn "addi" [pv "?dest", pv "?src", pl "0"]),
  mkRule "beq-same"
    (pn "beq" [pv "?src", pv "?src", pv "?label"])
    (pn "jal" [pl "x0", pv "?label"]),
  mkRule "bne-same"
    (pn "bne" [pv "?src", pv "?src", pv "?label"])
    (pl "nop"),
  mkRule "blt-same"
    (pn "blt" [pv "?src", pv "?src", pv "?label"])
    (pl "nop"),
  mkRule "bge-same"
    (pn "bge" [pv "?src", pv "?src", pv "?label"])
    (pn "jal" [pl "x0", pv "?label"]),
  mkRule "bltu-same"
    (pn "bltu" [pv "?src", pv "?src", pv "?label"])
    (pl "nop"),
  mkRule "bgeu-same"
    (pn "bgeu" [pv "?src", pv "?src", pv "?label"])
    (pn "jal" [pl "x0", pv "?label"]),
  mkRule "lw-zero-reg"
    (pn "lw" [pl "x0", pv "?addr"])
    (pl "nop"),
  mkRule "sw-zero-reg"
    (pn "sw" [pl "x0", pv "?addr"])
    (pl "nop"),
  mkRule "remove-nop"
    (psq "seq" (some "?instrs*") [pl "nop"] (some "?rest*"))
    (psq "seq" (some "?instrs*") [] (some "?rest*")),
  mkRule "addi-zero-self"
    (pn "addi" [pv "?dest", pv "?dest", pl "0"])
    (pl "nop"),
  mkRule "replace-top-empty-seq"
    (pn "seq" [])
    (pl "nop"),
  mkRule "add-zero-dest"
    (pn "add" [pl "x0", pv "?s1", pv "?s2"])
    (pl "nop"),
  mkRule "sub-zero-dest"
    (pn "sub" [pl "x0", pv "?s1", pv "?s2"])
    (pl "nop"),
  mkRule "mul-zero-dest"
    (pn "mul" [pl "x0", pv "?s1", pv "?s2"])
    (pl "nop"),
  mkRule "div-zero-dest"
    (pn "div" [pl "x0", pv "?s1", pv "?s2"])
    (pl "nop"),
  mkRule "divu-zero-dest"
    (pn "divu" [pl "x0", pv "?s1", pv "?s2"])
    (pl "nop"),
  mkRule "rem-zero-dest"
    (pn "rem" [pl "x0", pv "?s1", pv "?s2"])
    (pl "nop"),
  mkRule "remu-zero-dest"
    (pn "remu" [pl "x0", pv "?s1", pv "?s2"])
    (pl "nop"),
  mkRule "sll-zero-dest"
    (pn "sll" [pl "x0", pv "?s1", pv "?s2"])
    (pl "nop"),
  mkRule "srl-zero-dest"
    (pn "srl" [pl "x0", pv "?s1", pv "?s2"])
    (pl "nop"),
  mkRule "sra-zero-dest"
    (pn "sra" [pl "x0", pv "?s1", pv "?s2"])
    (pl "nop"),
  mkRule "and-zero-dest"
    (pn "and" [pl "x0", pv "?s1", pv "?s2"])
    (pl "nop"),
  mkRule "or-zero-dest"
    (pn "or" [pl "x0", pv "?s1", pv "?s2"])
    (pl "nop"),
  mkRule "xor-zero-dest"
    (pn "xor" [pl "x0", pv "?s1", pv "?s2"])
    (pl "nop"),
  mkRule "slt-zero-dest"
    (pn "slt" [pl "x0", pv "?s1", pv "?s2"])
    (pl "nop"),
  mkRule "sltu-zero-dest"
    (pn "sltu" [pl "x0", pv "?s1", pv "?s2"])
    (pl "nop"),
  mkRule "addi-zero-dest"
    (pn "addi" [pl "x0", pv "?s", pv "?i"])
    (pl "nop"),
  mkRule "andi-zero-dest"
    (pn "andi" [pl "x0", pv "?s", pv "?i"])
    (pl "nop"),
  mkRule "ori-zero-dest"
    (pn "ori" [pl "x0", pv "?s", pv "?i"])
    (pl "nop"),
  mkRule "xori-zero-dest"
    (pn "xori" [pl "x0", pv "?s", pv "?i"])
    (pl "nop"),
  mkRule "slti-zero-dest"
    (pn "slti" [pl "x0", pv "?s", pv "?i"])
    (pl "nop"),
  mkRule "sltiu-zero-dest"
    (pn "sltiu" [pl "x0", pv "?s", pv "?i"])
    (pl "nop"),
  mkRule "lui-zero-dest"
    (pn "lui" [pl "x0", pv "?i"])
    (pl "nop"),
  mkRule "auipc-zero-dest"
    (pn "auipc" [pl "x0", pv "?i"])
    (pl "nop"),
  mkRule "slli-zero-dest"
    (pn "slli" [pl "x0", pv "?s", pv "?i"])
    (pl "nop"),
  mkRule "srli-zero-dest"
    (pn "srli" [pl "x0", pv "?s", pv "?i"])
    (pl "nop"),
  mkRule "xor-zero"
    (pn "xor" [pv "?dest", pv "?src", pl "x0"])
    (pn "addi" [pv "?dest", pv "?src", pl "0"]),
  mkRule "xor-zero-commute"
    (pn "xor" [pv "?dest", pl "x0", pv "?src"])
    (pn "addi" [pv "?dest", pv "?src", pl "0"]),
  mkRule "fold-consecutive-addi"
    (psq "seq" (none) [pn "addi" [pv "?dest", pv "?src", pn "Num" [pv "?c1"]], pn "addi" [pv "?dest", pv "?dest", pn "Num" [pv "?c2"]]] (some "?rest*"))
    (psq "seq" (none) [pn "addi" [pv "?dest", pv "?src", pn "Num" [pn "+" [pv "?c1", pv "?c2"]]]] (some "?rest*")),
  mkRule "fold-sub-one"
    (pn "sub" [pv "?dest", pv "?src", pn "Num" [pl "1"]])
    (pn "addi" [pv "?dest", pv "?src", pl "-1"]),
  mkRule "fold-addi-then-subi"
    (psq "seq" (none) [pn "addi" [pv "?dest", pv "?src", pn "Num" [pv "?c1"]], pn "addi" [pv "?dest", pv "?dest", pn "Num" [pv "?c2"]]] (some "?rest*"))
    (psq "seq" (some "?rest*") [] (none)),
  mkRule "fold-lw-sw-same-address"
    (psq "seq" (none) [pn "lw" [pv "?r", pv "?addr"], pn "sw" [pv "?r", pv "?addr"]] (some "?rest*"))
    (psq "seq" (some "?rest*") [] (none))
]

/-! ### The equality-saturation engine

The engine (egg) is external to the repository; the definitions in this
section are modelled from the specification (§3-§4.5) and are marked so. -/

/-- An e-node: operator tag plus ordered child class ids (spec §3 "Node").
Modelled from the spec. -/
abbrev ENode := Str × List Nat

/-- An e-graph: class id = list index, each class owning its member nodes
(spec §3 "E-graph").  Modelled from the spec; a merged-away class is left
behind as an empty list so that class ids stay stable, all references to it
being renamed to the surviving class. -/
abbrev EGraph := List (List ENode)

/-- The member nodes of class `c` (empty for a dead or out-of-range id). -/
def getClass (g : EGraph) (c : Nat) : List ENode := (g[c]?).getD []

/-- Hash-consing lookup: the class already containing this exact node. -/
def findNode (g : EGraph) (n : ENode) : Option Nat :=
  (List.range g.length).find? fun c => decide (n ∈ getClass g c)

/-- `add` (spec §4.2): canonical hash-cons lookup, else allocate a new
singleton class.  Modelled from the spec. -/
def addNode (g : EGraph) (n : ENode) : EGraph × Nat :=
  match findNode g n with
  | some c => (g, c)
  | none => (g ++ [[n]], g.length)

mutual
/-- Seed the e-graph with a term, children first (spec §3 lifecycle: one
class per distinct subterm).  Modelled from the spec. -/
def addTerm (g : EGraph) : Term → EGraph × Nat
  | Term.node op ts =>
    let r := addTermList g ts
    addNode r.1 (op, r.2)

/-- Seed a list of terms left to right, returning their class ids. -/
def addTermList (g : EGraph) : List Term → EGraph × List Nat
  | [] => (g, [])
  | t :: ts =>
    let r := addTerm g t
    let r2 := addTermList r.1 ts
    (r2.1, r.2 :: r2.2)
end

/-- A substitution value: one class id for a pattern variable, an ordered
run of class ids for a sequence wildcard (spec §3 "Substitution"). -/
inductive SubstVal where
  | one (c : Nat)
  | many (cs : List Nat)
  deriving Repr, DecidableEq

/-- A substitution (spec §3). -/
abbrev Subst := List (Str × SubstVal)

/-- Look a name up in a substitution. -/
def lookupS (s : Subst) (x : Str) : Option SubstVal :=
  (s.find? fun e => decide (e.1 = x)).map (·.2)

/-- Bind a pattern variable to a class id, or check consistency: the same
variable occurring twice must bind to the same class (spec §4.3).
Modelled from the spec. -/
def bindVar (s : Subst) (x : Str) (c : Nat) : List Subst :=
  match lookupS s x with
  | none => [s ++ [(x, SubstVal.one c)]]
  | some (SubstVal.one c2) => if c2 = c then [s] else []
  | some (SubstVal.many _) => []

/-- Bind a sequence wildcard to an ordered run of class ids.
Modelled from the spec. -/
def bindWild (s : Subst) (w : Option Str) (run : List Nat) : List Subst :=
  match w with
  | none => [s]
  | some x =>
    match lookupS s x with
    | none => [s ++ [(x, SubstVal.many run)]]
    | some (SubstVal.many r2) => if r2 = run then [s] else []
    | some (SubstVal.one _) => []

/-- The candidate start positions of the fixed middle (length `m`) inside a
child list of length `n`: every split is tried; a missing head wildcard
pins the middle to the start, a missing tail wildcard pins it to the end
(spec §4.3).  Modelled from the spec. -/
def splitPositions (lead trail : Option Str) (m n : Nat) : List Nat :=
  if m ≤ n then
    (List.range (n - m + 1)).filter fun i =>
      (lead.isSome || decide (i = 0)) && (trail.isSome || decide (i + m = n))
  else []

mutual
/--
Modelled from the spec (§4.3): all substitutions extending `s` under which
pattern `p` matches class `c` of `g`.  A fixed-arity pattern node matches
through every member node with the right operator, children pairwise; a
sequence pattern additionally tries every split of the member node's child
list into head run / fixed middle / tail run, binding the wildcards to the
runs; every valid split contributes its own substitutions.
-/
def matchPat (g : EGraph) : Pat → Nat → Subst → List Subst
  | Pat.pvar x, c, s => bindVar s x c
  | Pat.pnode op ps, c, s =>
    (getClass g c).flatMap fun n =>
      if n.1 = op then matchList g ps n.2 s else []
  | Pat.pseq op lead fixed trail, c, s =>
    (getClass g c).flatMap fun n =>
      if n.1 = op then
        (splitPositions lead trail fixed.length n.2.length).flatMap fun i =>
          (matchList g fixed ((n.2.drop i).take fixed.length) s).flatMap fun s1 =>
            (bindWild s1 lead (n.2.take i)).flatMap fun s2 =>
              bindWild s2 trail (n.2.drop (i + fixed.length))
      else []

/-- Pairwise matching of fixed sub-patterns against child class ids under a
shared, growing substitution (spec §4.3). -/
def matchList (g : EGraph) : List Pat → List Nat → Subst → List Subst
  | [], [], s => [s]
  | [], _ :: _, _ => []
  | _ :: _, [], _ => []
  | p :: ps, c :: cs, s => (matchPat g p c s).flatMap (matchList g ps cs)
end

/-- The run of class ids a wildcard slot contributes on the right-hand
side: nothing for an absent wildcard, the bound run otherwise. -/
def wildRun (s : Subst) : Option Str → Option (List Nat)
  | none => some []
  | some x =>
    match lookupS s x with
    | some (SubstVal.many cs) => some cs
    | _ => none

mutual
/-- Modelled from the spec (§4.4): instantiate a right-hand pattern under a
substitution, allocating nodes via `add`; wildcard runs are spliced into
the child list.  `none` models an unbound variable (the rule tables bind
every right-hand name on the left, so it does not arise). -/
def instPat (g : EGraph) (s : Subst) : Pat → Option (EGraph × Nat)
  | Pat.pvar x =>
    match lookupS s x with
    | some (SubstVal.one c) => some (g, c)
    | _ => none
  | Pat.pnode op ps => do
    let r ← instList g s ps
    pure (addNode r.1 (op, r.2))
  | Pat.pseq op lead fixed trail => do
    let leadRun ← wildRun s lead
    let r ← instList g s fixed
    let trailRun ← wildRun s trail
    pure (addNode r.1 (op, leadRun ++ r.2 ++ trailRun))

/-- Instantiate a list of sub-patterns left to right. -/
def instList (g : EGraph) (s : Subst) : List Pat → Option (EGraph × List Nat)
  | [] => some (g, [])
  | p :: ps => do
    let r ← instPat g s p
    let r2 ← instList r.1 s ps
    pure (r2.1, r.2 :: r2.2)
end

/-- Rename one class id (references to the dropped class point to the
surviving one). -/
def renameId (keep drop x : Nat) : Nat := if x = drop then keep else x

/-- Rename the child references of a node. -/
def renameNode (keep drop : Nat) (n : ENode) : ENode :=
  (n.1, n.2.map (renameId keep drop))

/-- Structural de-duplication (hash-consing inside a class): keeps one copy
of each member. -/
def dedup {α : Type} [DecidableEq α] : List α → List α
  | [] => []
  | x :: xs =>
    let d := dedup xs
    if x ∈ d then d else x :: d

/-- Merge class `drop` into class `keep`: `drop` is emptied, its nodes move
to `keep`, and every child reference to `drop` is renamed to `keep`
(spec §4.2 `union`).  Modelled from the spec. -/
def mergeClasses (g : EGraph) (keep drop : Nat) : EGraph :=
  (List.range g.length).map fun c =>
    if c = drop then []
    else if c = keep then dedup ((getClass g keep ++ getClass g drop).map (renameNode keep drop))
    else dedup ((getClass g c).map (renameNode keep drop))

/-- `union` (spec §4.2): merge two classes, the smaller id surviving as the
canonical representative; a union of equal classes is a no-op.  Returns the
id-renaming alongside.  Modelled from the spec. -/
def unionG (g : EGraph) (a b : Nat) : EGraph × (Nat → Nat) :=
  if a = b then (g, fun x => x)
  else (mergeClasses g (min a b) (max a b), renameId (min a b) (max a b))

/-- A congruence collision: two (live) distinct classes sharing a member
node — the child references being canonical, congruent nodes are literally
equal (spec §3 congruence invariant). -/
def dupPairs (g : EGraph) : List (Nat × Nat) :=
  (List.range g.length).flatMap fun i =>
    (List.range g.length).flatMap fun j =>
      if decide (i < j) && (getClass g i).any (fun n => decide (n ∈ getClass g j)) then
        [(i, j)]
      else []

/-- Iterated congruence repair, fuelled; each merge empties one nonempty
class, so `g.length` fuel (as supplied by `rebuildG`) suffices. -/
def rebuildF : Nat → EGraph → EGraph × (Nat → Nat)
  | 0, g => (g, fun x => x)
  | fuel + 1, g =>
    match (dupPairs g).head? with
    | none => (g, fun x => x)
    | some (i, j) =>
      let g2 := mergeClasses g i j
      let r := rebuildF fuel g2
      (r.1, fun x => r.2 (renameId i j x))

/-- `rebuild` (spec §4.2): re-merge colliding classes until none remain,
restoring the congruence invariant.  Modelled from the spec. -/
def rebuildG (g : EGraph) : EGraph × (Nat → Nat) := rebuildF g.length g

/-- A collected match: target class, right-hand pattern, substitution
(spec §4.4 "(rule, substitution, target class) triples"). -/
abbrev Match := Nat × Pat × Subst

/-- Modelled from the spec (§4.4): the matching phase — every rule's left
pattern against every class of the frozen snapshot, no mutation. -/
def collectMatches (rs : List Rule) (g : EGraph) : List Match :=
  rs.flatMap fun r =>
    (List.range g.length).flatMap fun c =>
      (matchPat g r.lhs c []).map fun s => (c, r.rhs, s)

/-- Rename the class ids inside a substitution (matches were collected on
the snapshot; earlier unions of the applying phase may have renamed ids). -/
def renameSubst (ren : Nat → Nat) (s : Subst) : Subst :=
  s.map fun e =>
    (e.1, match e.2 with
          | SubstVal.one c => SubstVal.one (ren c)
          | SubstVal.many cs => SubstVal.many (cs.map ren))

/-- Modelled from the spec (§4.4): apply one collected match — instantiate
the right-hand side under the (renamed) substitution and union the result
with the (renamed) target class. -/
def applyMatch (st : EGraph × (Nat → Nat)) (m : Match) : EGraph × (Nat → Nat) :=
  match instPat st.1 (renameSubst st.2 m.2.2) m.2.1 with
  | none => st
  | some (g2, i) =>
    let u := unionG g2 i (st.2 m.1)
    (u.1, fun x => u.2 (st.2 x))

/-- Modelled from the spec (§4.4): one scheduler round — match everything
against the snapshot, apply every match, rebuild.  The root id is carried
through the renamings. -/
def roundS (rs : List Rule) (st : EGraph × Nat) : EGraph × Nat :=
  let ms := collectMatches rs st.1
  let ap := ms.foldl applyMatch (st.1, fun x => x)
  let rb := rebuildG ap.1
  (rb.1, rb.2 (ap.2 st.2))

/-- Modelled from the spec (§4.4): rounds repeat until a round changes
nothing (fixpoint) or the iteration budget runs out, whichever first;
running out of budget is not an error. -/
def saturateS (rs : List Rule) : Nat → EGraph × Nat → EGraph × Nat
  | 0, st => st
  | limit + 1, st =>
    let st2 := roundS rs st
    if st2 = st then st else saturateS rs limit st2

/-- `k` rounds, for stating what `saturateS` computed. -/
def iterRounds (rs : List Rule) : Nat → EGraph × Nat → EGraph × Nat
  | 0, st => st
  | k + 1, st => iterRounds rs k (roundS rs st)

/-- The iteration budget `main` configures: `with_iter_limit(100)`
(main.rs line 264). -/
def iterLimit : Nat := 100

/-! ### The extractor (spec §4.5), under the `AstSize` cost function -/

/-- Sum of current best costs over child classes (`none` = still infinite). -/
def sumCosts (tbl : List (Option Nat)) : List Nat → Option Nat
  | [] => some 0
  | c :: cs => do
    let v ← (tbl[c]?).getD none
    let rest ← sumCosts tbl cs
    pure (v + rest)

/-- A member node's candidate cost: its own `AstSize` contribution (1) plus
its children's best costs (spec §4.5).  Modelled from the spec. -/
def nodeCost (tbl : List (Option Nat)) (n : ENode) : Option Nat :=
  (sumCosts tbl n.2).map (1 + ·)

/-- Minimum of two best costs, `none` playing infinity. -/
def minO : Option Nat → Option Nat → Option Nat
  | none, b => b
  | some a, none => some a
  | some a, some b => some (min a b)

/-- Minimum candidate cost over a class's member nodes. -/
def bestOfNodes (tbl : List (Option Nat)) : List ENode → Option Nat
  | [] => none
  | n :: ns => minO (nodeCost tbl n) (bestOfNodes tbl ns)

/-- One pass of the best-cost-per-class iteration: recompute every class to
the minimum over its member nodes (spec §4.5).  Modelled from the spec. -/
def passTbl (g : EGraph) (tbl : List (Option Nat)) : List (Option Nat) :=
  (List.range g.length).map fun c => bestOfNodes tbl (getClass g c)

/-- The best-cost table after `fuel` passes, from the all-infinite start
(spec §4.5).  Modelled from the spec; the pipeline supplies enough passes
for the table to cover the input term. -/
def bestTbl (g : EGraph) : Nat → List (Option Nat)
  | 0 => List.replicate g.length none
  | fuel + 1 => passTbl g (bestTbl g fuel)

/-- Best cost of class `c` after `fuel` passes. -/
def bestCostAt (g : EGraph) (fuel c : Nat) : Option Nat :=
  ((bestTbl g fuel)[c]?).getD none

/-- Modelled from the spec (§4.5): reconstruct a winning term by picking,
at each class, a member node achieving the recorded best cost; fuelled by
term depth (the pipeline supplies the input's size, which covers every
candidate at least as cheap as the input). -/
def extractTermF (g : EGraph) (tbl : List (Option Nat)) : Nat → Nat → Option Term
  | 0, _ => none
  | fuel + 1, c => do
    let k ← (tbl[c]?).getD none
    let n ← (getClass g c).find? fun n => nodeCost tbl n == some k
    let ts ← n.2.mapM (extractTermF g tbl fuel)
    pure (Term.node n.1 ts)

/-! ### The pipeline and `main` -/

/-- Seed a fresh e-graph with the parsed input (spec §3 lifecycle,
main.rs line 263 `with_expr`). -/
def seedSt (t : Term) : EGraph × Nat := addTerm [] t

/-- Saturate the seeded graph under the iteration budget
(main.rs lines 262-265). -/
def runSat (rs : List Rule) (t : Term) : EGraph × Nat :=
  saturateS rs iterLimit (seedSt t)

/-- The extracted best cost for input `t` (main.rs lines 267-268,
`Extractor::new(&egraph, AstSize)` / `find_best`).  The best-cost table is
iterated `astSize t` passes, which covers every candidate at least as cheap
as the input. -/
def pipelineCost (rs : List Rule) (t : Term) : Option Nat :=
  let st := runSat rs t
  bestCostAt st.1 (astSize t) st.2

/-- The extracted best term for input `t`. -/
def pipelineBest (rs : List Rule) (t : Term) : Option Term :=
  let st := runSat rs t
  extractTermF st.1 (bestTbl st.1 (astSize t)) (astSize t) st.2

/-- Where the modelled `main` can panic. -/
inductive PanicSite where
  | inputParse
  | ruleTable
  | extractBest
  | postpass
  deriving Repr, DecidableEq

/-- The observable outcome of a `main` run on a successfully read input
file: a normal return that wrote `written` to `output.s`, or a panic. -/
inductive Outcome where
  | ok (written : Str)
  | panic (site : PanicSite)
  deriving Repr, DecidableEq

/-- The pipeline stages of `main`, in source order. -/
inductive Stage where
  | readInput
  | parseInput
  | buildTable
  | saturate
  | extractBest
  | postpass
  | writeOutput
  deriving Repr, DecidableEq

/--
`main` (main.rs lines 128-280) on a successfully read `input.s` whose
content is `content`: parse (`unwrap` — panics on failure), build the rule
table (each `rw!` `unwrap`s its pattern parses — panics on the first
failure), saturate, extract, run the `remove_nops` text post-pass, write
`output.s`.  Returns the outcome plus the stages reached, in order.
-/
def mainRun (content : Str) : Outcome × List Stage :=
  match parseRecExpr content with
  | none => (Outcome.panic PanicSite.inputParse, [Stage.readInput, Stage.parseInput])
  | some t =>
    match buildRules with
    | none =>
      (Outcome.panic PanicSite.ruleTable, [Stage.readInput, Stage.parseInput, Stage.buildTable])
    | some rs =>
      match pipelineBest rs t with
      | none =>
        (Outcome.panic PanicSite.extractBest,
         [Stage.readInput, Stage.parseInput, Stage.buildTable, Stage.saturate, Stage.extractBest])
      | some best =>
        match remove_nops (printTerm best) with
        | none =>
          (Outcome.panic PanicSite.postpass,
           [Stage.readInput, Stage.parseInput, Stage.buildTable, Stage.saturate,
            Stage.extractBest, Stage.postpass])
        | some out =>
          (Outcome.ok out,
           [Stage.readInput, Stage.parseInput, Stage.buildTable, Stage.saturate,
            Stage.extractBest, Stage.postpass, Stage.writeOutput])

/-! ### Term representation inside an e-graph -/

mutual
/-- Is term `t` represented by class `c`: some member node carries `t`'s
operator and children representing `t`'s children (spec §4.5: the terms
reachable by choosing one member node per class).  -/
def reprB (g : EGraph) : Term → Nat → Bool
  | Term.node op ts, c =>
    (getClass g c).any fun n => n.1 == op && reprListB g ts n.2

/-- Pairwise representation of a list of terms by a list of classes. -/
def reprListB (g : EGraph) : List Term → List Nat → Bool
  | [], [] => true
  | t :: ts, c :: cs => reprB g t c && reprListB g ts cs
  | _, _ => false
end

/-! ### Predicates and named objects used by the statements below -/

/-- Order on best costs, `none` playing infinity. -/
def leO : Option Nat → Option Nat → Prop
  | none, none => True
  | none, some _ => False
  | some _, none => True
  | some a, some b => a ≤ b

/-- `g'` extends `g` by appending new classes, leaving existing classes
untouched (what `add` does). -/
def ExtendsG (g g' : EGraph) : Prop := ∃ ext, g' = g ++ ext

/-- Hash-consing invariant of a freshly seeded graph: no node occurs in two
classes (spec §3 hash-consing). -/
def DisjG (g : EGraph) : Prop :=
  ∀ i j (n : ENode), n ∈ getClass g i → n ∈ getClass g j → i = j

/-- Every class of a freshly seeded graph is a singleton. -/
def SingG (g : EGraph) : Prop := ∀ c, (getClass g c).length ≤ 1

/-- In a freshly seeded graph every node's children have smaller class ids
(children are added before their parent). -/
def ChildLtG (g : EGraph) : Prop :=
  ∀ c (n : ENode), n ∈ getClass g c → ∀ x ∈ n.2, x < c

/-- The left-hand pattern of `remove-nop`,
`"(seq ?instrs* nop ?rest*)"` (main.rs line 193). -/
def removeNopLhs : Pat := psq "seq" (some "?instrs*") [pn "nop" []] (some "?rest*")

/-- The right-hand pattern of `remove-nop`, `"(seq ?instrs* ?rest*)"`. -/
def removeNopRhs : Pat := psq "seq" (some "?instrs*") [] (some "?rest*")

/-- The substitution `remove-nop` produces for the split at position `k`. -/
def removeNopSubst (cs : List Nat) (k : Nat) : Subst :=
  [("?instrs*".data, SubstVal.many (cs.take k)), ("?rest*".data, SubstVal.many (cs.drop (k + 1)))]

/-- The left-hand pattern of `fold-addi-then-subi` at face value
(main.rs lines 250-251). -/
def foldAddiSubiLhs : Pat :=
  psq "seq" none
    [pn "addi" [pv "?dest", pv "?src", pn "Num" [pv "?c1"]],
     pn "addi" [pv "?dest", pv "?dest", pn "Num" [pv "?c2"]]]
    (some "?rest*")

/-- The right-hand pattern of `fold-addi-then-subi` at face value,
`"(seq ?rest*)"`. -/
def foldAddiSubiRhs : Pat := psq "seq" (some "?rest*") [] none

/-- The substitution `fold-addi-then-subi` produces (no constraint between
the two constants' classes). -/
def foldAddiSubiSubst (d s c1 c2 : Nat) (rest : List Nat) : Subst :=
  [("?dest".data, SubstVal.one d), ("?src".data, SubstVal.one s),
   ("?c1".data, SubstVal.one c1), ("?c2".data, SubstVal.one c2),
   ("?rest*".data, SubstVal.many rest)]

/-- The `nop` e-node. -/
def nopNode : ENode := (nopStr, [])

/-- The concrete input term `(sub t0 t1 t1)` of the spec's scenario. -/
def tSubT0T1T1 : Term :=
  Term.node "sub".data [Term.node "t0".data [], Term.node "t1".data [], Term.node "t1".data []]

/-- The term `(li t0 0)` the spec's scenario expects — `li` is not an
operator of `RiscvLang`. -/
def tLiT0Zero : Term := Term.node "li".data [Term.node "t0".data [], Term.node "0".data []]

/-- The term `(addi t0 x0 0)` that `sub-same` actually rewrites
`(sub t0 t1 t1)` to. -/
def tAddiT0X0Zero : Term :=
  Term.node "addi".data [Term.node "t0".data [], Term.node "x0".data [], Term.node "0".data []]

/-- A leaf input on which no rule of the table matches. -/
def tLeafT9 : Term := Term.node "t9".data []

/-- Concrete e-graph with one `seq` class over `[a, nop, b]`
(classes: 0 ↦ `a`, 1 ↦ `nop`, 2 ↦ `b`, 3 ↦ the sequence). -/
def gOneNop : EGraph :=
  [[("a".data, [])], [nopNode], [("b".data, [])], [(seqStr, [0, 1, 2])]]

/-- Concrete e-graph with one `seq` class over `[a, nop, nop]`
(two valid splits for `remove-nop`). -/
def gTwoNops : EGraph :=
  [[("a".data, [])], [nopNode], [(seqStr, [0, 1, 1])]]

/-- Concrete e-graph for the `fold-addi-then-subi` witness: the sequence
`(seq (addi t0 t1 (Num 5)) (addi t0 t0 (Num 3)))` — the two constants 5 and
3 are not negatives of each other. -/
def gFoldWitness : EGraph :=
  [[("t0".data, [])],            -- 0: dest
   [("t1".data, [])],            -- 1: src
   [("5".data, [])],             -- 2
   [("Num".data, [2])],          -- 3: (Num 5)
   [("3".data, [])],             -- 4
   [("Num".data, [4])],          -- 5: (Num 3)
   [("addi".data, [0, 1, 3])],   -- 6
   [("addi".data, [0, 0, 5])],   -- 7
   [(seqStr, [6, 7])]]           -- 8: the sequence

/-- Invariant of the `remove_nops` loop state: an open sequence buffer
always begins with `"(seq"` (so `clean_sequence`'s first assertion always
passes), and a closed one is empty. -/
def NopInv (st : NopState) : Prop :=
  (st.inSeq = true → ∃ t, st.seqBuffer = seqOpen ++ t) ∧
  (st.inSeq = false → st.seqBuffer = [])

/-! ## Theorems -/

/-! ### Generic list and class lemmas -/

theorem mem_getClass_lt {g : EGraph} {c : Nat} {n : ENode} (h : n ∈ getClass g c) :
    c < g.length := by
  by_contra hc
  have hnone : g[c]? = none := List.getElem?_eq_none (by omega)
  simp [getClass, hnone] at h

theorem getClass_append_left {g ext : EGraph} {c : Nat} (h : c < g.length) :
    getClass (g ++ ext) c = getClass g c := by
  simp [getClass, List.getElem?_append_left h]

theorem flatMap_eq_nil_of_forall {α β : Type} {l : List α} {f : α → List β}
    (h : ∀ x ∈ l, f x = []) : l.flatMap f = [] := by
  induction l with
  | nil => rfl
  | cons a t ih =>
    have ht : t.flatMap f = [] := ih fun x hx => h x (List.mem_cons_of_mem _ hx)
    simp [h a (List.mem_cons_self a t), ht]

theorem range_flatMap_eq_single {β : Type} {f : Nat → List β} {n k : Nat} {v : β}
    (hk : k < n) (hother : ∀ i, i < n → i ≠ k → f i = []) (hfk : f k = [v]) :
    (List.range n).flatMap f = [v] := by
  induction n with
  | zero => omega
  | succ n ih =>
    rw [List.range_succ, List.flatMap_append]
    by_cases hkn : k = n
    · subst hkn
      have h1 : ∀ i ∈ List.range k, f i = [] := by
        intro i hi
        have := List.mem_range.mp hi
        exact hother i (by omega) (by omega)
      rw [flatMap_eq_nil_of_forall h1]
      simp [hfk]
    · have h2 : (List.range n).flatMap f = [v] :=
        ih (by omega) fun i hi hne => hother i (by omega) hne
      have h3 : f n = [] := hother n (by omega) fun he => hkn he.symm
      simp [h2, h3]

/-! ### Best-cost order lemmas -/

theorem leO_some_iff {a : Option Nat} {m : Nat} :
    leO a (some m) ↔ ∃ k, a = some k ∧ k ≤ m := by
  cases a <;> simp [leO]

theorem leO_trans {a b c : Option Nat} (h1 : leO a b) (h2 : leO b c) : leO a c := by
  cases a <;> cases b <;> cases c <;> simp_all [leO]
  omega

theorem minO_le_left (a b : Option Nat) : leO (minO a b) a := by
  cases a <;> cases b <;> simp [minO, leO]

theorem minO_le_right (a b : Option Nat) : leO (minO a b) b := by
  cases a <;> cases b <;> simp [minO, leO]

theorem bestOfNodes_le {tbl : List (Option Nat)} {ns : List ENode} {n : ENode} (h : n ∈ ns) :
    leO (bestOfNodes tbl ns) (nodeCost tbl n) := by
  induction ns with
  | nil => cases h
  | cons m ms ih =>
    rcases List.mem_cons.mp h with he | hm
    · subst he
      exact minO_le_left _ _
    · exact leO_trans (minO_le_right _ _) (ih hm)

theorem bestOfNodes_some {tbl : List (Option Nat)} {ns : List ENode} {k : Nat}
    (h : bestOfNodes tbl ns = some k) : ∃ n ∈ ns, nodeCost tbl n = some k := by
  induction ns with
  | nil => simp [bestOfNodes] at h
  | cons m ms ih =>
    rw [bestOfNodes] at h
    cases hm : nodeCost tbl m with
    | none =>
      rw [hm] at h
      cases hms : bestOfNodes tbl ms with
      | none => rw [hms] at h; simp [minO] at h
      | some b =>
        rw [hms] at h
        simp [minO] at h
        obtain ⟨n, hn, hc⟩ := ih (hms.trans (by rw [h]))
        exact ⟨n, List.mem_cons_of_mem _ hn, hc⟩
    | some a =>
      rw [hm] at h
      cases hms : bestOfNodes tbl ms with
      | none =>
        rw [hms] at h
        simp [minO] at h
        exact ⟨m, List.mem_cons_self _ _, by rw [hm, h]⟩
      | some b =>
        rw [hms] at h
        simp [minO] at h
        rcases Nat.le_total a b with hab | hba
        · refine ⟨m, List.mem_cons_self _ _, ?_⟩
          rw [hm, ← h, Nat.min_eq_left hab]
        · obtain ⟨n, hn, hc⟩ := ih (by rw [hms, ← h, Nat.min_eq_right hba])
          exact ⟨n, List.mem_cons_of_mem _ hn, hc⟩

/-! ### Representation is preserved by graph extension -/

mutual
theorem reprB_extends {g ext : EGraph} : ∀ {t : Term} {c : Nat},
    reprB g t c = true → reprB (g ++ ext) t c = true
  | Term.node op ts, c, h => by
    rw [reprB] at h ⊢
    obtain ⟨n, hn, hcond⟩ := List.any_eq_true.mp h
    have hlt : c < g.length := mem_getClass_lt hn
    rw [getClass_append_left hlt]
    refine List.any_eq_true.mpr ⟨n, hn, ?_⟩
    rw [Bool.and_eq_true] at hcond ⊢
    exact ⟨hcond.1, reprListB_extends hcond.2⟩

theorem reprListB_extends {g ext : EGraph} : ∀ {ts : List Term} {cs : List Nat},
    reprListB g ts cs = true → reprListB (g ++ ext) ts cs = true
  | [], [], _ => rfl
  | t :: ts, c :: cs, h => by
    rw [reprListB] at h ⊢
    rw [Bool.and_eq_true] at h ⊢
    exact ⟨reprB_extends h.1, reprListB_extends h.2⟩
end

/-! ### Representation is preserved by merging classes -/

theorem dedup_cons {α : Type} [DecidableEq α] (x : α) (xs : List α) :
    dedup (x :: xs) = if x ∈ dedup xs then dedup xs else x :: dedup xs := rfl

theorem mem_dedup {α : Type} [DecidableEq α] {a : α} {l : List α} : a ∈ dedup l ↔ a ∈ l := by
  induction l with
  | nil => simp [dedup]
  | cons x xs ih =>
    rw [dedup_cons]
    by_cases hx : x ∈ dedup xs
    · rw [if_pos hx, ih]
      constructor
      · exact fun h => List.mem_cons_of_mem _ h
      · intro h
        rcases List.mem_cons.mp h with he | hm
        · subst he
          exact ih.mp hx
        · exact hm
    · rw [if_neg hx, List.mem_cons, List.mem_cons, ih]

theorem getClass_merge {g : EGraph} {keep drop c : Nat} (hc : c < g.length) :
    getClass (mergeClasses g keep drop) c =
      if c = drop then []
      else if c = keep then dedup ((getClass g keep ++ getClass g drop).map (renameNode keep drop))
      else dedup ((getClass g c).map (renameNode keep drop)) := by
  unfold mergeClasses getClass
  rw [List.getElem?_map, List.getElem?_range hc]
  rfl

theorem length_merge (g : EGraph) (keep drop : Nat) :
    (mergeClasses g keep drop).length = g.length := by
  simp [mergeClasses]

mutual
theorem reprB_merge {g : EGraph} {keep drop : Nat} (hkd : keep < drop) :
    ∀ {t : Term} {c : Nat}, reprB g t c = true →
      reprB (mergeClasses g keep drop) t (renameId keep drop c) = true
  | Term.node op ts, c, h => by
    rw [reprB] at h
    obtain ⟨n, hn, hcond⟩ := List.any_eq_true.mp h
    rw [Bool.and_eq_true] at hcond
    have hlt : c < g.length := mem_getClass_lt hn
    rw [reprB]
    refine List.any_eq_true.mpr ⟨renameNode keep drop n, ?_, ?_⟩
    · by_cases hcd : c = drop
      · subst hcd
        have hkeep : keep < g.length := lt_trans hkd hlt
        rw [show renameId keep c c = keep from by simp [renameId]]
        rw [getClass_merge hkeep, if_neg (by omega), if_pos rfl, mem_dedup]
        exact List.mem_map_of_mem _ (List.mem_append_right _ hn)
      · rw [show renameId keep drop c = c from by simp [renameId, hcd]]
        rw [getClass_merge hlt, if_neg hcd]
        by_cases hck : c = keep
        · subst hck
          rw [if_pos rfl, mem_dedup]
          exact List.mem_map_of_mem _ (List.mem_append_left _ hn)
        · rw [if_neg hck, mem_dedup]
          exact List.mem_map_of_mem _ hn
    · rw [Bool.and_eq_true]
      refine ⟨by simpa [renameNode] using hcond.1, ?_⟩
      have hrec := reprListB_merge hkd hcond.2
      simpa [renameNode] using hrec

theorem reprListB_merge {g : EGraph} {keep drop : Nat} (hkd : keep < drop) :
    ∀ {ts : List Term} {cs : List Nat}, reprListB g ts cs = true →
      reprListB (mergeClasses g keep drop) ts (cs.map (renameId keep drop)) = true
  | [], [], _ => rfl
  | t :: ts, c :: cs, h => by
    rw [reprListB, Bool.and_eq_true] at h
    show reprListB _ (t :: ts) (renameId keep drop c :: cs.map (renameId keep drop)) = true
    rw [reprListB, Bool.and_eq_true]
    exact ⟨reprB_merge hkd h.1, reprListB_merge hkd h.2⟩
end

/-! ### Extension lemmas for `add` and instantiation -/

theorem extends_refl (g : EGraph) : ExtendsG g g := ⟨[], by simp⟩

theorem extends_trans {g g' g'' : EGraph} (h1 : ExtendsG g g') (h2 : ExtendsG g' g'') :
    ExtendsG g g'' := by
  obtain ⟨e1, rfl⟩ := h1
  obtain ⟨e2, rfl⟩ := h2
  exact ⟨e1 ++ e2, by simp⟩

theorem extends_length_le {g g' : EGraph} (h : ExtendsG g g') : g.length ≤ g'.length := by
  obtain ⟨e, rfl⟩ := h
  simp

theorem reprB_of_extends {g g' : EGraph} {t : Term} {c : Nat} (he : ExtendsG g g')
    (h : reprB g t c = true) : reprB g' t c = true := by
  obtain ⟨e, rfl⟩ := he
  exact reprB_extends h

theorem reprListB_of_extends {g g' : EGraph} {ts : List Term} {cs : List Nat}
    (he : ExtendsG g g') (h : reprListB g ts cs = true) : reprListB g' ts cs = true := by
  obtain ⟨e, rfl⟩ := he
  exact reprListB_extends h

theorem addNode_extends (g : EGraph) (n : ENode) : ExtendsG g (addNode g n).1 := by
  unfold addNode
  cases h : findNode g n with
  | some c => exact extends_refl g
  | none => exact ⟨[[n]], rfl⟩

theorem addNode_mem (g : EGraph) (n : ENode) : n ∈ getClass (addNode g n).1 (addNode g n).2 := by
  unfold addNode
  cases h : findNode g n with
  | some c =>
    have hp := List.find?_some h
    simpa using hp
  | none =>
    show n ∈ getClass (g ++ [[n]]) g.length
    have hg : (g ++ [[n]])[g.length]? = some [n] := by
      rw [List.getElem?_append_right (le_refl _)]
      simp
    simp [getClass, hg]

theorem addNode_lt (g : EGraph) (n : ENode) : (addNode g n).2 < (addNode g n).1.length :=
  mem_getClass_lt (addNode_mem g n)

mutual
theorem addTerm_spec : ∀ (g : EGraph) (t : Term),
    ExtendsG g (addTerm g t).1 ∧ (addTerm g t).2 < (addTerm g t).1.length ∧
      reprB (addTerm g t).1 t (addTerm g t).2 = true
  | g, Term.node op ts => by
    obtain ⟨hext, hbnd, hrepr⟩ := addTermList_spec g ts
    show ExtendsG g (addNode (addTermList g ts).1 (op, (addTermList g ts).2)).1 ∧ _ ∧ _
    refine ⟨extends_trans hext (addNode_extends _ _), addNode_lt _ _, ?_⟩
    rw [reprB]
    refine List.any_eq_true.mpr ⟨(op, (addTermList g ts).2), addNode_mem _ _, ?_⟩
    rw [Bool.and_eq_true]
    exact ⟨by simp, reprListB_of_extends (addNode_extends _ _) hrepr⟩

theorem addTermList_spec : ∀ (g : EGraph) (ts : List Term),
    ExtendsG g (addTermList g ts).1 ∧
      (∀ x ∈ (addTermList g ts).2, x < (addTermList g ts).1.length) ∧
      reprListB (addTermList g ts).1 ts (addTermList g ts).2 = true
  | g, [] => ⟨extends_refl g, by simp [addTermList], rfl⟩
  | g, t :: ts => by
    obtain ⟨he1, hb1, hr1⟩ := addTerm_spec g t
    obtain ⟨he2, hb2, hr2⟩ := addTermList_spec (addTerm g t).1 ts
    show ExtendsG g (addTermList (addTerm g t).1 ts).1 ∧ _ ∧ _
    refine ⟨extends_trans he1 he2, ?_, ?_⟩
    · intro x hx
      rcases List.mem_cons.mp hx with rfl | hxs
      · exact lt_of_lt_of_le hb1 (extends_length_le he2)
      · exact hb2 x hxs
    · show reprListB _ (t :: ts) ((addTerm g t).2 :: (addTermList (addTerm g t).1 ts).2) = true
      rw [reprListB, Bool.and_eq_true]
      exact ⟨reprB_of_extends he2 hr1, hr2⟩
end

mutual
theorem instPat_extends : ∀ {p : Pat} {g : EGraph} {s : Subst} {r : EGraph × Nat},
    instPat g s p = some r → ExtendsG g r.1
  | Pat.pvar x, g, s, r, h => by
    rw [instPat] at h
    cases hl : lookupS s x with
    | none => rw [hl] at h; cases h
    | some v =>
      cases v with
      | one c =>
        rw [hl] at h
        cases h
        exact extends_refl g
      | many cs => rw [hl] at h; cases h
  | Pat.pnode op ps, g, s, r, h => by
    rw [instPat] at h
    cases hi : instList g s ps with
    | none => rw [hi] at h; cases h
    | some ri =>
      rw [hi] at h
      cases h
      exact extends_trans (instList_extends hi) (addNode_extends _ _)
  | Pat.pseq op lead fixed trail, g, s, r, h => by
    rw [instPat] at h
    cases hw1 : wildRun s lead with
    | none => rw [hw1] at h; cases h
    | some run1 =>
      rw [hw1] at h
      cases hi : instList g s fixed with
      | none => rw [hi] at h; cases h
      | some ri =>
        rw [hi] at h
        cases hw2 : wildRun s trail with
        | none => rw [hw2] at h; cases h
        | some run2 =>
          rw [hw2] at h
          cases h
          exact extends_trans (instList_extends hi) (addNode_extends _ _)

theorem instList_extends : ∀ {ps : List Pat} {g : EGraph} {s : Subst} {r : EGraph × List Nat},
    instList g s ps = some r → ExtendsG g r.1
  | [], g, s, r, h => by
    rw [instList] at h
    cases h
    exact extends_refl g
  | p :: ps, g, s, r, h => by
    rw [instList] at h
    cases hp : instPat g s p with
    | none => rw [hp] at h; cases h
    | some rp =>
      rw [hp] at h
      replace h : (instList rp.1 s ps).bind (fun r2 => some (r2.1, rp.2 :: r2.2)) = some r := h
      cases hl : instList rp.1 s ps with
      | none => rw [hl] at h; cases h
      | some rl =>
        rw [hl] at h
        cases h
        show ExtendsG g rl.1
        exact extends_trans (instPat_extends hp) (instList_extends hl)
end

/-! ### The input stays represented through a saturation run -/

theorem mem_of_head? {α : Type} {l : List α} {a : α} (h : l.head? = some a) : a ∈ l := by
  cases l with
  | nil => cases h
  | cons x xs =>
    have hxa : x = a := Option.some.inj h
    subst hxa
    exact List.mem_cons_self _ _

theorem dupPairs_sound {g : EGraph} {i j : Nat} (h : (i, j) ∈ dupPairs g) : i < j := by
  unfold dupPairs at h
  rcases List.mem_flatMap.mp h with ⟨a, _, h2⟩
  rcases List.mem_flatMap.mp h2 with ⟨b, _, h3⟩
  by_cases hc : (decide (a < b) && (getClass g a).any fun n => decide (n ∈ getClass g b)) = true
  · rw [if_pos hc] at h3
    simp at h3
    obtain ⟨rfl, rfl⟩ := h3
    rw [Bool.and_eq_true] at hc
    exact of_decide_eq_true hc.1
  · rw [if_neg hc] at h3
    cases h3

theorem applyMatch_repr {t : Term} {r0 : Nat} (st : EGraph × (Nat → Nat)) (m : Match)
    (h : reprB st.1 t (st.2 r0) = true) :
    reprB (applyMatch st m).1 t ((applyMatch st m).2 r0) = true := by
  unfold applyMatch
  cases hi : instPat st.1 (renameSubst st.2 m.2.2) m.2.1 with
  | none => exact h
  | some gi =>
    obtain ⟨g2, i⟩ := gi
    have hext : reprB g2 t (st.2 r0) = true := reprB_of_extends (instPat_extends hi) h
    show reprB (unionG g2 i (st.2 m.1)).1 t ((unionG g2 i (st.2 m.1)).2 (st.2 r0)) = true
    unfold unionG
    by_cases he : i = st.2 m.1
    · rw [if_pos he]
      exact hext
    · rw [if_neg he]
      exact reprB_merge (by omega) hext

theorem foldl_applyMatch_repr {t : Term} {r0 : Nat} (ms : List Match) :
    ∀ (st : EGraph × (Nat → Nat)), reprB st.1 t (st.2 r0) = true →
      reprB (ms.foldl applyMatch st).1 t ((ms.foldl applyMatch st).2 r0) = true := by
  induction ms with
  | nil => exact fun st h => h
  | cons m ms ih => exact fun st h => ih _ (applyMatch_repr st m h)

theorem rebuildF_repr {t : Term} : ∀ (fuel : Nat) (g : EGraph) (c : Nat),
    reprB g t c = true → reprB (rebuildF fuel g).1 t ((rebuildF fuel g).2 c) = true
  | 0, g, c, h => h
  | fuel + 1, g, c, h => by
    rw [rebuildF]
    cases hd : (dupPairs g).head? with
    | none => exact h
    | some ij =>
      obtain ⟨i, j⟩ := ij
      have hij : i < j := dupPairs_sound (mem_of_head? hd)
      exact rebuildF_repr fuel _ _ (reprB_merge hij h)

theorem roundS_repr {t : Term} (rs : List Rule) (st : EGraph × Nat)
    (h : reprB st.1 t st.2 = true) :
    reprB (roundS rs st).1 t (roundS rs st).2 = true := by
  unfold roundS rebuildG
  exact rebuildF_repr _ _ _ (foldl_applyMatch_repr _ _ h)

theorem saturateS_repr {t : Term} (rs : List Rule) : ∀ (limit : Nat) (st : EGraph × Nat),
    reprB st.1 t st.2 = true →
    reprB (saturateS rs limit st).1 t (saturateS rs limit st).2 = true
  | 0, st, h => h
  | limit + 1, st, h => by
    rw [saturateS]
    by_cases heq : roundS rs st = st
    · rw [if_pos heq]
      exact h
    · rw [if_neg heq]
      exact saturateS_repr rs limit _ (roundS_repr rs st h)

theorem runSat_repr (rs : List Rule) (t : Term) :
    reprB (runSat rs t).1 t (runSat rs t).2 = true := by
  unfold runSat seedSt
  exact saturateS_repr rs iterLimit _ (addTerm_spec [] t).2.2

/-! ### The best-cost table: basic shape -/

theorem astSize_pos (t : Term) : 1 ≤ astSize t := by
  cases t with
  | node op ts => rw [astSize]; omega

theorem bestTbl_length (g : EGraph) : ∀ fuel, (bestTbl g fuel).length = g.length
  | 0 => by simp [bestTbl]
  | fuel + 1 => by simp [bestTbl, passTbl]

theorem bestCostAt_zero (g : EGraph) (c : Nat) : bestCostAt g 0 c = none := by
  unfold bestCostAt bestTbl
  rcases Nat.lt_or_ge c g.length with h | h
  · rw [List.getElem?_replicate, if_pos h]
    rfl
  · rw [List.getElem?_replicate, if_neg (by omega)]
    rfl

theorem bestCostAt_succ {g : EGraph} {fuel c : Nat} (hc : c < g.length) :
    bestCostAt g (fuel + 1) c = bestOfNodes (bestTbl g fuel) (getClass g c) := by
  show ((passTbl g (bestTbl g fuel))[c]?).getD none = _
  unfold passTbl
  rw [List.getElem?_map, List.getElem?_range hc]
  rfl

theorem bestCostAt_ge {g : EGraph} {fuel c : Nat} (hc : g.length ≤ c) :
    bestCostAt g fuel c = none := by
  unfold bestCostAt
  rw [List.getElem?_eq_none (by rw [bestTbl_length]; omega)]
  rfl

/-! ### Upper bound: the table is at most the cost of any represented term
(enough passes assumed) -/

theorem bestTbl_le (g : EGraph) : ∀ (fuel : Nat),
    (∀ (t : Term) (c : Nat), reprB g t c = true → astSize t ≤ fuel →
        leO (bestCostAt g fuel c) (some (astSize t)))
  ∧ (∀ (ts : List Term) (cs : List Nat), reprListB g ts cs = true → astSizeList ts ≤ fuel →
        leO (sumCosts (bestTbl g fuel) cs) (some (astSizeList ts)))
  | 0 => by
    constructor
    · intro t c _ hsz
      have := astSize_pos t
      omega
    · intro ts cs hrep hsz
      cases ts with
      | nil =>
        cases cs with
        | nil => simp [sumCosts, astSizeList, leO]
        | cons c cs => exact Bool.noConfusion hrep
      | cons t ts =>
        have := astSize_pos t
        rw [astSizeList] at hsz
        omega
  | fuel + 1 => by
    obtain ⟨ihT, ihL⟩ := bestTbl_le g fuel
    have hT : ∀ (t : Term) (c : Nat), reprB g t c = true → astSize t ≤ fuel + 1 →
        leO (bestCostAt g (fuel + 1) c) (some (astSize t)) := by
      intro t c hrep hsz
      cases t with
      | node op ts =>
        rw [reprB] at hrep
        obtain ⟨n, hn, hcond⟩ := List.any_eq_true.mp hrep
        rw [Bool.and_eq_true] at hcond
        have hc : c < g.length := mem_getClass_lt hn
        rw [bestCostAt_succ hc]
        refine leO_trans (bestOfNodes_le hn) ?_
        have hchild : leO (sumCosts (bestTbl g fuel) n.2) (some (astSizeList ts)) :=
          ihL ts n.2 hcond.2 (by rw [astSize] at hsz; omega)
        rw [leO_some_iff] at hchild
        obtain ⟨k, hk, hkle⟩ := hchild
        rw [nodeCost, hk, astSize]
        show leO (some (1 + k)) (some (1 + astSizeList ts))
        simp [leO]
        omega
    refine ⟨hT, ?_⟩
    intro ts cs hrep hsz
    induction ts generalizing cs with
    | nil =>
      cases cs with
      | nil => simp [sumCosts, astSizeList, leO]
      | cons c cs => exact Bool.noConfusion hrep
    | cons t ts ihts =>
      cases cs with
      | nil => exact Bool.noConfusion hrep
      | cons c cs =>
        rw [reprListB, Bool.and_eq_true] at hrep
        have hszt : astSize t ≤ fuel + 1 := by
          rw [astSizeList] at hsz
          omega
        have h1 := hT t c hrep.1 hszt
        have h2 : leO (sumCosts (bestTbl g (fuel + 1)) cs) (some (astSizeList ts)) :=
          ihts cs hrep.2 (by rw [astSizeList] at hsz; have := astSize_pos t; omega)
        rw [leO_some_iff] at h1 h2
        obtain ⟨k1, hk1, hle1⟩ := h1
        obtain ⟨k2, hk2, hle2⟩ := h2
        rw [sumCosts]
        have h3 : ((bestTbl g (fuel + 1))[c]?).getD none = some k1 := hk1
        rw [h3, hk2]
        show leO (some (k1 + k2)) (some (astSizeList (t :: ts)))
        rw [astSizeList]
        simp [leO]
        omega

/-! ### Soundness: every finite table value is achieved by a represented term -/

theorem sumCosts_sound {g : EGraph} {fuel : Nat}
    (IH : ∀ c k, bestCostAt g fuel c = some k → ∃ t, reprB g t c = true ∧ astSize t = k) :
    ∀ (cs : List Nat) (s : Nat), sumCosts (bestTbl g fuel) cs = some s →
      ∃ ts, reprListB g ts cs = true ∧ astSizeList ts = s := by
  intro cs
  induction cs with
  | nil =>
    intro s h
    rw [sumCosts] at h
    cases h
    exact ⟨[], rfl, rfl⟩
  | cons c cs ih =>
    intro s h
    rw [sumCosts] at h
    cases hv : ((bestTbl g fuel)[c]?).getD none with
    | none => rw [hv] at h; cases h
    | some v =>
      rw [hv] at h
      replace h : (sumCosts (bestTbl g fuel) cs).bind (fun rest => some (v + rest)) = some s := h
      cases hr : sumCosts (bestTbl g fuel) cs with
      | none => rw [hr] at h; cases h
      | some rest =>
        rw [hr] at h
        cases h
        obtain ⟨t, hrt, hst⟩ := IH c v hv
        obtain ⟨ts, hrts, hsts⟩ := ih rest hr
        refine ⟨t :: ts, ?_, ?_⟩
        · rw [reprListB, Bool.and_eq_true]
          exact ⟨hrt, hrts⟩
        · rw [astSizeList, hst, hsts]

theorem bestCostAt_sound (g : EGraph) : ∀ (fuel c k : Nat),
    bestCostAt g fuel c = some k → ∃ t, reprB g t c = true ∧ astSize t = k
  | 0, c, k, h => by rw [bestCostAt_zero] at h; cases h
  | fuel + 1, c, k, h => by
    have hc : c < g.length := by
      by_contra hge
      rw [bestCostAt_ge (by omega)] at h
      cases h
    rw [bestCostAt_succ hc] at h
    obtain ⟨n, hn, hcost⟩ := bestOfNodes_some h
    rw [nodeCost] at hcost
    cases hs : sumCosts (bestTbl g fuel) n.2 with
    | none => rw [hs] at hcost; cases hcost
    | some srest =>
      rw [hs] at hcost
      have hk : 1 + srest = k := Option.some.inj hcost
      obtain ⟨ts, hrts, hsts⟩ :=
        sumCosts_sound (fun c' k' h' => bestCostAt_sound g fuel c' k' h') n.2 srest hs
      refine ⟨Term.node n.1 ts, ?_, ?_⟩
      · rw [reprB]
        refine List.any_eq_true.mpr ⟨n, hn, ?_⟩
        rw [Bool.and_eq_true]
        exact ⟨by simp, hrts⟩
      · rw [astSize, hsts, hk]

/-! ### In a freshly seeded graph the represented term is unique -/

theorem length_le_one_mem {α : Type} {l : List α} (h : l.length ≤ 1) {a b : α}
    (ha : a ∈ l) (hb : b ∈ l) : a = b := by
  cases l with
  | nil => cases ha
  | cons x xs =>
    cases xs with
    | nil =>
      simp at ha hb
      rw [ha, hb]
    | cons y ys => simp at h

theorem reprListB_unique_aux (g : EGraph) {c : Nat}
    (ih : ∀ m, m < c → ∀ t t' : Term, reprB g t m = true → reprB g t' m = true → t = t') :
    ∀ (cs : List Nat), (∀ x ∈ cs, x < c) → ∀ (ts ts' : List Term),
      reprListB g ts cs = true → reprListB g ts' cs = true → ts = ts' := by
  intro cs
  induction cs with
  | nil =>
    intro _ ts ts' h h'
    cases ts with
    | nil =>
      cases ts' with
      | nil => rfl
      | cons t' tl' => exact Bool.noConfusion h'
    | cons t tl => exact Bool.noConfusion h
  | cons x cs ihcs =>
    intro hb ts ts' h h'
    cases ts with
    | nil => exact Bool.noConfusion h
    | cons t tl =>
      cases ts' with
      | nil => exact Bool.noConfusion h'
      | cons t' tl' =>
        rw [reprListB, Bool.and_eq_true] at h h'
        have h1 : t = t' := ih x (hb x (List.mem_cons_self _ _)) t t' h.1 h'.1
        have h2 : tl = tl' :=
          ihcs (fun y hy => hb y (List.mem_cons_of_mem _ hy)) tl tl' h.2 h'.2
        rw [h1, h2]

theorem repr_unique (g : EGraph) (hs : SingG g) (hcl : ChildLtG g) :
    ∀ (c : Nat) (t t' : Term), reprB g t c = true → reprB g t' c = true → t = t' := by
  intro c
  induction c using Nat.strong_induction_on with
  | _ c ih =>
    intro t t' ht ht'
    cases t with
    | node op ts =>
      cases t' with
      | node op' ts' =>
        rw [reprB] at ht ht'
        obtain ⟨n, hn, hcond⟩ := List.any_eq_true.mp ht
        obtain ⟨n', hn', hcond'⟩ := List.any_eq_true.mp ht'
        rw [Bool.and_eq_true] at hcond hcond'
        have hnn : n = n' := length_le_one_mem (hs c) hn hn'
        subst hnn
        have hop : op = op' := by
          have e1 : n.1 = op := eq_of_beq hcond.1
          have e2 : n.1 = op' := eq_of_beq hcond'.1
          rw [← e1, e2]
        have hts : ts = ts' :=
          reprListB_unique_aux g (fun m hm => ih m hm) n.2 (hcl c n hn) ts ts'
            hcond.2 hcond'.2
        rw [hop, hts]

/-! ### Seeding establishes the hash-consing invariants -/

theorem findNode_none {g : EGraph} {n : ENode} (h : findNode g n = none) :
    ∀ c, n ∉ getClass g c := by
  intro c hmem
  have hlt := mem_getClass_lt hmem
  have hp := List.find?_eq_none.mp h c (List.mem_range.mpr hlt)
  simp at hp
  exact hp hmem

theorem getClass_append_single {g : EGraph} {cl : List ENode} {c : Nat} :
    getClass (g ++ [cl]) c =
      if c < g.length then getClass g c else if c = g.length then cl else [] := by
  by_cases h : c < g.length
  · rw [if_pos h, getClass_append_left h]
  · rw [if_neg h]
    by_cases h2 : c = g.length
    · subst h2
      rw [if_pos rfl]
      unfold getClass
      rw [List.getElem?_append_right (le_refl _)]
      simp
    · rw [if_neg h2]
      unfold getClass
      rw [List.getElem?_append_right (by omega)]
      rw [List.getElem?_eq_none (by simp; omega)]
      rfl

theorem addNode_inv {g : EGraph} {n : ENode} (hd : DisjG g) (hsg : SingG g) (hcl : ChildLtG g)
    (hn : ∀ x ∈ n.2, x < g.length) :
    DisjG (addNode g n).1 ∧ SingG (addNode g n).1 ∧ ChildLtG (addNode g n).1 := by
  unfold addNode
  cases hf : findNode g n with
  | some c => exact ⟨hd, hsg, hcl⟩
  | none =>
    have hnotin := findNode_none hf
    refine ⟨?_, ?_, ?_⟩
    · intro i j m hmi hmj
      rw [getClass_append_single] at hmi hmj
      by_cases hi : i < g.length <;> by_cases hj : j < g.length
      · rw [if_pos hi] at hmi
        rw [if_pos hj] at hmj
        exact hd i j m hmi hmj
      · rw [if_pos hi] at hmi
        rw [if_neg hj] at hmj
        by_cases hj2 : j = g.length
        · rw [if_pos hj2] at hmj
          simp at hmj
          subst hmj
          exact absurd hmi (hnotin i)
        · rw [if_neg hj2] at hmj
          cases hmj
      · rw [if_neg hi] at hmi
        rw [if_pos hj] at hmj
        by_cases hi2 : i = g.length
        · rw [if_pos hi2] at hmi
          simp at hmi
          subst hmi
          exact absurd hmj (hnotin j)
        · rw [if_neg hi2] at hmi
          cases hmi
      · rw [if_neg hi] at hmi
        rw [if_neg hj] at hmj
        by_cases hi2 : i = g.length
        · by_cases hj2 : j = g.length
          · rw [hi2, hj2]
          · rw [if_neg hj2] at hmj
            cases hmj
        · rw [if_neg hi2] at hmi
          cases hmi
    · intro c
      rw [getClass_append_single]
      by_cases hc : c < g.length
      · rw [if_pos hc]
        exact hsg c
      · rw [if_neg hc]
        by_cases hc2 : c = g.length
        · rw [if_pos hc2]
          simp
        · rw [if_neg hc2]
          simp
    · intro c m hm x hx
      rw [getClass_append_single] at hm
      by_cases hc : c < g.length
      · rw [if_pos hc] at hm
        exact hcl c m hm x hx
      · rw [if_neg hc] at hm
        by_cases hc2 : c = g.length
        · rw [if_pos hc2] at hm
          simp at hm
          subst hm
          rw [hc2]
          exact hn x hx
        · rw [if_neg hc2] at hm
          cases hm

mutual
theorem addTerm_inv : ∀ (g : EGraph) (t : Term), DisjG g → SingG g → ChildLtG g →
    DisjG (addTerm g t).1 ∧ SingG (addTerm g t).1 ∧ ChildLtG (addTerm g t).1
  | g, Term.node op ts, hd, hs, hc => by
    obtain ⟨hd1, hs1, hc1⟩ := addTermList_inv g ts hd hs hc
    have hb := (addTermList_spec g ts).2.1
    show DisjG (addNode (addTermList g ts).1 (op, (addTermList g ts).2)).1 ∧ _ ∧ _
    exact addNode_inv hd1 hs1 hc1 hb

theorem addTermList_inv : ∀ (g : EGraph) (ts : List Term), DisjG g → SingG g → ChildLtG g →
    DisjG (addTermList g ts).1 ∧ SingG (addTermList g ts).1 ∧ ChildLtG (addTermList g ts).1
  | _, [], hd, hs, hc => ⟨hd, hs, hc⟩
  | g, t :: ts, hd, hs, hc => by
    obtain ⟨hd1, hs1, hc1⟩ := addTerm_inv g t hd hs hc
    exact addTermList_inv (addTerm g t).1 ts hd1 hs1 hc1
end

theorem getClass_nil (c : Nat) : getClass ([] : EGraph) c = [] := by
  unfold getClass
  simp

theorem seed_inv (t : Term) :
    DisjG (seedSt t).1 ∧ SingG (seedSt t).1 ∧ ChildLtG (seedSt t).1 := by
  unfold seedSt
  refine addTerm_inv [] t ?_ ?_ ?_
  · intro i j n hi _
    rw [getClass_nil] at hi
    cases hi
  · intro c
    rw [getClass_nil]
    simp
  · intro c n hn
    rw [getClass_nil] at hn
    cases hn

/-! ### A matchless round leaves the graph untouched -/

theorem dupPairs_nil_of_disj {g : EGraph} (hd : DisjG g) : dupPairs g = [] := by
  unfold dupPairs
  apply flatMap_eq_nil_of_forall
  intro i _
  apply flatMap_eq_nil_of_forall
  intro j _
  by_cases hc : (decide (i < j) && (getClass g i).any fun n => decide (n ∈ getClass g j)) = true
  · exfalso
    rw [Bool.and_eq_true] at hc
    have hij : i < j := of_decide_eq_true hc.1
    obtain ⟨n, hni, hnj⟩ := List.any_eq_true.mp hc.2
    exact absurd (hd i j n hni (of_decide_eq_true hnj)) (by omega)
  · rw [if_neg hc]

theorem rebuildF_id_of_disj {g : EGraph} (hd : DisjG g) :
    ∀ fuel, rebuildF fuel g = (g, fun x => x)
  | 0 => rfl
  | fuel + 1 => by
    rw [rebuildF, dupPairs_nil_of_disj hd]
    rfl

theorem roundS_id_of_no_matches {rs : List Rule} {st : EGraph × Nat} (hd : DisjG st.1)
    (hm : collectMatches rs st.1 = []) : roundS rs st = st := by
  unfold roundS rebuildG
  rw [hm]
  simp only [List.foldl_nil]
  rw [rebuildF_id_of_disj hd]

theorem saturateS_eq_of_fix {rs : List Rule} {st : EGraph × Nat} (h : roundS rs st = st) :
    ∀ limit, saturateS rs limit st = st
  | 0 => rfl
  | limit + 1 => by
    rw [saturateS]
    simp [h]

/-! ### Exact extraction on a freshly seeded graph -/

theorem seed_repr (t : Term) : reprB (seedSt t).1 t (seedSt t).2 = true := by
  unfold seedSt
  exact (addTerm_spec [] t).2.2

theorem seed_cost_exact (t : Term) :
    bestCostAt (seedSt t).1 (astSize t) (seedSt t).2 = some (astSize t) := by
  have hrep := seed_repr t
  have hub := (bestTbl_le (seedSt t).1 (astSize t)).1 t (seedSt t).2 hrep (le_refl _)
  rw [leO_some_iff] at hub
  obtain ⟨k, hk, hkle⟩ := hub
  obtain ⟨t', hrt', hst'⟩ := bestCostAt_sound _ _ _ _ hk
  obtain ⟨hd, hsg, hcl⟩ := seed_inv t
  have heq : t' = t := repr_unique _ hsg hcl _ t' t hrt' hrep
  rw [hk, ← hst', heq]

/--
C4: for every rule table and every input term, under the program's
node-count cost function (`AstSize`, non-negative), the cost of the term
extracted from the root class after running the rules is less than or equal
to the cost of the original input term, and equal to it if no rewrite rule
ever matched.
-/
theorem extraction_monotone (rs : List Rule) (t : Term) :
    ∃ k, pipelineCost rs t = some k ∧ k ≤ astSize t ∧
      (collectMatches rs (seedSt t).1 = [] → k = astSize t) := by
  have hrep := runSat_repr rs t
  have hub := (bestTbl_le (runSat rs t).1 (astSize t)).1 t (runSat rs t).2 hrep (le_refl _)
  rw [leO_some_iff] at hub
  obtain ⟨k, hk, hkle⟩ := hub
  refine ⟨k, hk, hkle, ?_⟩
  intro hnone
  obtain ⟨hd, _, _⟩ := seed_inv t
  have hfix : roundS rs (seedSt t) = seedSt t := roundS_id_of_no_matches hd hnone
  have hsat : runSat rs t = seedSt t := saturateS_eq_of_fix hfix iterLimit
  have hexact : pipelineCost rs t = some (astSize t) := by
    show bestCostAt (runSat rs t).1 (astSize t) (runSat rs t).2 = _
    rw [hsat]
    exact seed_cost_exact t
  have hexact2 : bestCostAt (runSat rs t).1 (astSize t) (runSat rs t).2 = some (astSize t) :=
    hexact
  rw [hk] at hexact2
  exact Option.some.inj hexact2

/-- Witness for C4: on the program's rule table and the leaf input `t9`
(which no rule matches) the extracted cost equals the input's cost. -/
theorem extraction_monotone_witness :
    pipelineCost ruleTableFace tLeafT9 = some (astSize tLeafT9) := by
  obtain ⟨k, hk, _, himp⟩ := extraction_monotone ruleTableFace tLeafT9
  rw [hk, himp rfl]

/-! ### The scheduler loop: fixpoint or budget -/

theorem saturateS_rounds (rs : List Rule) : ∀ (limit : Nat) (st : EGraph × Nat),
    ∃ k, k ≤ limit ∧ saturateS rs limit st = iterRounds rs k st ∧
      (k < limit → roundS rs (iterRounds rs k st) = iterRounds rs k st)
  | 0, st => ⟨0, le_refl _, rfl, by omega⟩
  | limit + 1, st => by
    by_cases h : roundS rs st = st
    · refine ⟨0, by omega, ?_, fun _ => h⟩
      show (if roundS rs st = st then st else saturateS rs limit (roundS rs st)) =
        iterRounds rs 0 st
      rw [if_pos h]
      rfl
    · obtain ⟨k, hk, hsat, hfix⟩ := saturateS_rounds rs limit (roundS rs st)
      refine ⟨k + 1, by omega, ?_, ?_⟩
      · show (if roundS rs st = st then st else saturateS rs limit (roundS rs st)) =
          iterRounds rs (k + 1) st
        rw [if_neg h]
        exact hsat
      · intro hk1
        exact hfix (by omega)

/--
C9: for every rule table and every starting state, the saturation loop
terminates: it computes some number `k ≤ 100` of rounds (the configured
iteration budget `iterLimit`), stopping early exactly at a fixpoint round;
and exhausting the budget is not an error — for every input term the
pipeline still extracts a best-effort cost from the (possibly unsaturated)
e-graph.
-/
theorem saturation_terminates (rs : List Rule) :
    (∀ st : EGraph × Nat, ∃ k, k ≤ iterLimit ∧
        saturateS rs iterLimit st = iterRounds rs k st ∧
        (k < iterLimit → roundS rs (iterRounds rs k st) = iterRounds rs k st))
    ∧ ∀ t : Term, ∃ c, pipelineCost rs t = some c := by
  refine ⟨fun st => saturateS_rounds rs iterLimit st, ?_⟩
  intro t
  have hrep := runSat_repr rs t
  have hub := (bestTbl_le (runSat rs t).1 (astSize t)).1 t (runSat rs t).2 hrep (le_refl _)
  rw [leO_some_iff] at hub
  obtain ⟨k, hk, _⟩ := hub
  exact ⟨k, hk⟩

/-- Witness for C9: the program's rule table on the concrete input
`(sub t0 t1 t1)` — saturation ran and extraction produced a cost. -/
theorem saturation_terminates_witness :
    ∃ c, pipelineCost ruleTableFace tSubT0T1T1 = some c :=
  (saturation_terminates ruleTableFace).2 tSubT0T1T1

/-! ### The variadic matcher on the `remove-nop` pattern -/

theorem splitPositions_both (a b : Str) {m n : Nat} (h : m ≤ n) :
    splitPositions (some a) (some b) m n = List.range (n - m + 1) := by
  unfold splitPositions
  rw [if_pos h]
  simp

theorem matchList_one (g : EGraph) (p : Pat) (v : Nat) (s : Subst) :
    matchList g [p] [v] s = matchPat g p v s := by
  show (matchPat g p v s).flatMap (fun s1 => [s1]) = matchPat g p v s
  exact List.flatMap_singleton' _

theorem matchPat_pseq_singleton {g : EGraph} {c : Nat} {op : Str} {lead trail : Option Str}
    {fixed : List Pat} {cs : List Nat} {s : Subst}
    (hclass : getClass g c = [(op, cs)]) :
    matchPat g (Pat.pseq op lead fixed trail) c s =
      (splitPositions lead trail fixed.length cs.length).flatMap fun i =>
        (matchList g fixed ((cs.drop i).take fixed.length) s).flatMap fun s1 =>
          (bindWild s1 lead (cs.take i)).flatMap fun s2 =>
            bindWild s2 trail (cs.drop (i + fixed.length)) := by
  rw [matchPat, hclass]
  rw [List.flatMap_cons, List.flatMap_nil, List.append_nil, if_pos rfl]

theorem matchPat_pseq_mem {g : EGraph} {c : Nat} {op : Str} {lead trail : Option Str}
    {fixed : List Pat} {cs : List Nat} {s : Subst} {σ : Subst}
    (hmem : (op, cs) ∈ getClass g c) (i : Nat)
    (hi : i ∈ splitPositions lead trail fixed.length cs.length)
    (hbody : σ ∈ (matchList g fixed ((cs.drop i).take fixed.length) s).flatMap fun s1 =>
          (bindWild s1 lead (cs.take i)).flatMap fun s2 =>
            bindWild s2 trail (cs.drop (i + fixed.length))) :
    σ ∈ matchPat g (Pat.pseq op lead fixed trail) c s := by
  rw [matchPat]
  refine List.mem_flatMap.mpr ⟨(op, cs), hmem, ?_⟩
  rw [if_pos rfl]
  exact List.mem_flatMap.mpr ⟨i, hi, hbody⟩

theorem matchPat_nop_count (g : EGraph) (x : Nat) (s : Subst) :
    matchPat g (Pat.pnode nopStr []) x s = List.replicate ((getClass g x).count nopNode) s := by
  rw [matchPat]
  induction getClass g x with
  | nil => rfl
  | cons n ns ih =>
    rw [List.flatMap_cons, ih]
    by_cases hn : n = nopNode
    · subst hn
      rw [show (if nopNode.1 = nopStr then matchList g [] nopNode.2 s else []) = [s] from rfl]
      have hcnt : (nopNode :: ns).count nopNode = ns.count nopNode + 1 := by
        simp [List.count_cons]
      rw [hcnt, List.replicate_succ]
      rfl
    · have hcontrib : (if n.1 = nopStr then matchList g [] n.2 s else []) = [] := by
        by_cases h1 : n.1 = nopStr
        · rw [if_pos h1]
          cases hc : n.2 with
          | nil =>
            exfalso
            apply hn
            cases n
            simp [nopNode] at h1 hc ⊢
            exact ⟨h1, hc⟩
          | cons y ys => rw [matchList.eq_def]
        · rw [if_neg h1]
      have hcnt : (n :: ns).count nopNode = ns.count nopNode := by
        simp [List.count_cons, hn]
      rw [hcontrib, hcnt]
      rfl

theorem drop_take_one {cs : List Nat} {i : Nat} (h : i < cs.length) :
    (cs.drop i).take 1 = [cs.getD i 0] := by
  have h2 : cs.getD i 0 = cs[i] := by
    rw [List.getD_eq_getElem?_getD, List.getElem?_eq_getElem h]
    rfl
  rw [h2, List.drop_eq_getElem_cons h]
  rfl

theorem instPat_removeNopRhs (g : EGraph) (cs : List Nat) (k : Nat) :
    instPat g (removeNopSubst cs k) removeNopRhs =
      some (addNode g (seqStr, cs.take k ++ cs.drop (k + 1))) := by
  show some (addNode g (seqStr, (cs.take k ++ []) ++ cs.drop (k + 1))) = _
  rw [List.append_nil]

/--
C2: for the program's `remove-nop` rule `(seq ?instrs* nop ?rest*)` and an
input sequence of `n` elements containing exactly one `nop` at position
`k`, the matcher produces exactly one substitution, binding `?instrs*` to
the first `k` elements and `?rest*` to the remaining `n − k − 1`; applying
the rule instantiates `(seq ?instrs* ?rest*)` to the sequence with that
element removed, all other elements kept in order.
-/
theorem remove_nop_wildcard (g : EGraph) (c k : Nat) (cs : List Nat)
    (hclass : getClass g c = [(seqStr, cs)])
    (hk : k < cs.length)
    (hcount : ∀ i, i < cs.length →
      (getClass g (cs.getD i 0)).count nopNode = if i = k then 1 else 0) :
    matchPat g removeNopLhs c [] = [removeNopSubst cs k]
    ∧ instPat g (removeNopSubst cs k) removeNopRhs =
        some (addNode g (seqStr, cs.take k ++ cs.drop (k + 1)))
    ∧ cs.take k ++ cs.drop (k + 1) = cs.eraseIdx k := by
  refine ⟨?_, instPat_removeNopRhs g cs k, (List.eraseIdx_eq_take_drop_succ cs k).symm⟩
  rw [show removeNopLhs =
        Pat.pseq seqStr (some "?instrs*".data) [Pat.pnode nopStr []] (some "?rest*".data)
      from rfl]
  rw [matchPat_pseq_singleton hclass]
  rw [show ([Pat.pnode nopStr []] : List Pat).length = 1 from rfl]
  rw [splitPositions_both _ _ (by omega), show cs.length - 1 + 1 = cs.length from by omega]
  apply range_flatMap_eq_single hk
  · intro i hi hne
    rw [drop_take_one hi, matchList_one, matchPat_nop_count, hcount i hi, if_neg hne]
    rfl
  · rw [drop_take_one hk, matchList_one, matchPat_nop_count, hcount k hk, if_pos rfl]
    rw [show List.replicate 1 ([] : Subst) = [[]] from rfl]
    rw [List.flatMap_cons, List.flatMap_nil, List.append_nil]
    rw [show bindWild [] (some "?instrs*".data) (cs.take k) =
          [[("?instrs*".data, SubstVal.many (cs.take k))]] from rfl]
    rw [List.flatMap_cons, List.flatMap_nil, List.append_nil]
    rw [show bindWild [("?instrs*".data, SubstVal.many (cs.take k))] (some "?rest*".data)
          (cs.drop (k + 1)) = [removeNopSubst cs k] from rfl]

/-- Witness for C2: the sequence `(seq a nop b)` with the single `nop` at
position 1 — the matcher finds exactly the one split and the rule removes
exactly that element. -/
theorem remove_nop_wildcard_witness :
    matchPat gOneNop removeNopLhs 3 [] = [removeNopSubst [0, 1, 2] 1]
    ∧ instPat gOneNop (removeNopSubst [0, 1, 2] 1) removeNopRhs =
        some (addNode gOneNop (seqStr, [0, 2])) :=
  ⟨(remove_nop_wildcard gOneNop 3 1 [0, 1, 2] rfl (by decide) (by decide)).1,
   (remove_nop_wildcard gOneNop 3 1 [0, 1, 2] rfl (by decide) (by decide)).2.1⟩

/--
C6: when a sequence allows several splits satisfying a wildcard pattern's
fixed sub-patterns, every valid split yields its own match: for the
`remove-nop` pattern, every decomposition of the child list as
`front ++ [x] ++ back` with a `nop` member in class `x` contributes the
substitution binding `?instrs*` to `front` and `?rest*` to `back`, each an
independent rewrite opportunity; none is silently dropped.
-/
theorem wildcard_all_splits (g : EGraph) (c x : Nat) (cs front back : List Nat)
    (hmem : (seqStr, cs) ∈ getClass g c)
    (hsplit : cs = front ++ x :: back)
    (hnop : nopNode ∈ getClass g x) :
    [("?instrs*".data, SubstVal.many front), ("?rest*".data, SubstVal.many back)]
      ∈ matchPat g removeNopLhs c []
    ∧ instPat g [("?instrs*".data, SubstVal.many front), ("?rest*".data, SubstVal.many back)]
        removeNopRhs = some (addNode g (seqStr, front ++ back)) := by
  constructor
  · subst hsplit
    rw [show removeNopLhs =
          Pat.pseq seqStr (some "?instrs*".data) [Pat.pnode nopStr []] (some "?rest*".data)
        from rfl]
    refine matchPat_pseq_mem hmem front.length ?_ ?_
    · rw [show ([Pat.pnode nopStr []] : List Pat).length = 1 from rfl]
      rw [splitPositions_both _ _ (by simp; omega)]
      apply List.mem_range.mpr
      simp
      omega
    · rw [show ([Pat.pnode nopStr []] : List Pat).length = 1 from rfl]
      have hdrop : (front ++ x :: back).drop front.length = x :: back := by simp
      rw [hdrop, show (x :: back).take 1 = [x] from rfl, matchList_one]
      refine List.mem_flatMap.mpr ⟨[], ?_, ?_⟩
      · rw [matchPat]
        refine List.mem_flatMap.mpr ⟨nopNode, hnop, ?_⟩
        rw [show (if nopNode.1 = nopStr then matchList g [] nopNode.2 [] else []) = [[]]
            from rfl]
        exact List.mem_singleton.mpr rfl
      · have htake : (front ++ x :: back).take front.length = front := by simp
        rw [htake]
        rw [show bindWild ([] : Subst) (some "?instrs*".data) front =
              [[("?instrs*".data, SubstVal.many front)]] from rfl]
        refine List.mem_flatMap.mpr ⟨_, List.mem_singleton.mpr rfl, ?_⟩
        have hdrop2 : (front ++ x :: back).drop (front.length + 1) = back := by
          rw [show front ++ x :: back = (front ++ [x]) ++ back from by simp]
          rw [show front.length + 1 = (front ++ [x]).length from by simp]
          simp
        rw [hdrop2]
        rw [show bindWild [("?instrs*".data, SubstVal.many front)] (some "?rest*".data) back =
              [[("?instrs*".data, SubstVal.many front), ("?rest*".data, SubstVal.many back)]]
            from rfl]
        exact List.mem_singleton.mpr rfl
  · show some (addNode g (seqStr, (front ++ []) ++ back)) = _
    rw [List.append_nil]

/-- Witness for C6: the sequence `(seq a nop nop)` allows two valid splits
for `remove-nop`, and the matcher reports both. -/
theorem wildcard_all_splits_witness :
    [("?instrs*".data, SubstVal.many [0]), ("?rest*".data, SubstVal.many [1])]
      ∈ matchPat gTwoNops removeNopLhs 2 []
    ∧ [("?instrs*".data, SubstVal.many [0, 1]), ("?rest*".data, SubstVal.many ([] : List Nat))]
      ∈ matchPat gTwoNops removeNopLhs 2 [] :=
  ⟨(wildcard_all_splits gTwoNops 2 1 [0, 1, 1] [0] [1] (by decide) rfl (by decide)).1,
   (wildcard_all_splits gTwoNops 2 1 [0, 1, 1] [0, 1] [] (by decide) rfl (by decide)).1⟩

/-! ### `fold-addi-then-subi` deletes unconditionally -/

theorem range_filter_zero : ∀ (j : Nat),
    (List.range (j + 1)).filter (fun i => decide (i = 0)) = [0]
  | 0 => rfl
  | j + 1 => by
    rw [List.range_succ, List.filter_append, range_filter_zero j]
    simp

theorem splitPositions_noLead (b : Str) {m n : Nat} (h : m ≤ n) :
    splitPositions none (some b) m n = [0] := by
  unfold splitPositions
  rw [if_pos h]
  simp only [Option.isSome_none, Option.isSome_some, Bool.false_or, Bool.true_or, Bool.and_true]
  exact range_filter_zero (n - m)

/-- Chain a head match and a tail match into a `matchList` membership. -/
theorem mem_matchList_cons {g : EGraph} {p : Pat} {ps : List Pat} {v : Nat} {vs : List Nat}
    {s σm σf : Subst} (h1 : σm ∈ matchPat g p v s) (h2 : σf ∈ matchList g ps vs σm) :
    σf ∈ matchList g (p :: ps) (v :: vs) s := by
  show σf ∈ (matchPat g p v s).flatMap fun s1 => matchList g ps vs s1
  exact List.mem_flatMap.mpr ⟨σm, h1, h2⟩

/--
C5: the rule `fold-addi-then-subi` deletes both instructions
unconditionally — for all `dest`/`src` classes, all constant classes `c1`
and `c2` (no relation between them is imposed by the pattern), and every
remainder of the sequence, it matches
`(seq (addi dest src (Num c1)) (addi dest dest (Num c2)) rest…)` and its
right-hand side instantiates to `(seq rest…)`, dropping both instructions.
-/
theorem fold_addi_then_subi_unconditional (g : EGraph) (c a1 a2 d s n1 n2 c1 c2 : Nat)
    (rest : List Nat)
    (hseq : (seqStr, a1 :: a2 :: rest) ∈ getClass g c)
    (h1 : ("addi".data, [d, s, n1]) ∈ getClass g a1)
    (h2 : ("addi".data, [d, d, n2]) ∈ getClass g a2)
    (hn1 : ("Num".data, [c1]) ∈ getClass g n1)
    (hn2 : ("Num".data, [c2]) ∈ getClass g n2) :
    foldAddiSubiSubst d s c1 c2 rest ∈ matchPat g foldAddiSubiLhs c []
    ∧ instPat g (foldAddiSubiSubst d s c1 c2 rest) foldAddiSubiRhs =
        some (addNode g (seqStr, rest)) := by
  have hσ1 : [("?dest".data, SubstVal.one d)] ∈ matchPat g (Pat.pvar "?dest".data) d [] :=
    List.mem_singleton.mpr rfl
  have hσ2 : [("?dest".data, SubstVal.one d), ("?src".data, SubstVal.one s)] ∈
      matchPat g (Pat.pvar "?src".data) s [("?dest".data, SubstVal.one d)] :=
    List.mem_singleton.mpr rfl
  have hσ3 : [("?dest".data, SubstVal.one d), ("?src".data, SubstVal.one s),
      ("?c1".data, SubstVal.one c1)] ∈
      matchPat g (Pat.pnode "Num".data [Pat.pvar "?c1".data]) n1
        [("?dest".data, SubstVal.one d), ("?src".data, SubstVal.one s)] := by
    rw [matchPat]
    refine List.mem_flatMap.mpr ⟨("Num".data, [c1]), hn1, ?_⟩
    rw [if_pos rfl]
    exact List.mem_singleton.mpr rfl
  have hm1 : [("?dest".data, SubstVal.one d), ("?src".data, SubstVal.one s),
      ("?c1".data, SubstVal.one c1)] ∈
      matchPat g (Pat.pnode "addi".data [Pat.pvar "?dest".data, Pat.pvar "?src".data,
        Pat.pnode "Num".data [Pat.pvar "?c1".data]]) a1 [] := by
    rw [matchPat]
    refine List.mem_flatMap.mpr ⟨("addi".data, [d, s, n1]), h1, ?_⟩
    rw [if_pos rfl]
    exact mem_matchList_cons hσ1 (mem_matchList_cons hσ2
      (mem_matchList_cons hσ3 (List.mem_singleton.mpr rfl)))
  have hrep : [("?dest".data, SubstVal.one d), ("?src".data, SubstVal.one s),
      ("?c1".data, SubstVal.one c1)] ∈
      matchPat g (Pat.pvar "?dest".data) d
        [("?dest".data, SubstVal.one d), ("?src".data, SubstVal.one s),
         ("?c1".data, SubstVal.one c1)] := by
    rw [show matchPat g (Pat.pvar "?dest".data) d
          [("?dest".data, SubstVal.one d), ("?src".data, SubstVal.one s),
           ("?c1".data, SubstVal.one c1)] =
        (if d = d then [[("?dest".data, SubstVal.one d), ("?src".data, SubstVal.one s),
           ("?c1".data, SubstVal.one c1)]] else []) from rfl]
    rw [if_pos rfl]
    exact List.mem_singleton.mpr rfl
  have hσ4 : [("?dest".data, SubstVal.one d), ("?src".data, SubstVal.one s),
      ("?c1".data, SubstVal.one c1), ("?c2".data, SubstVal.one c2)] ∈
      matchPat g (Pat.pnode "Num".data [Pat.pvar "?c2".data]) n2
        [("?dest".data, SubstVal.one d), ("?src".data, SubstVal.one s),
         ("?c1".data, SubstVal.one c1)] := by
    rw [matchPat]
    refine List.mem_flatMap.mpr ⟨("Num".data, [c2]), hn2, ?_⟩
    rw [if_pos rfl]
    exact List.mem_singleton.mpr rfl
  have hm2 : [("?dest".data, SubstVal.one d), ("?src".data, SubstVal.one s),
      ("?c1".data, SubstVal.one c1), ("?c2".data, SubstVal.one c2)] ∈
      matchPat g (Pat.pnode "addi".data [Pat.pvar "?dest".data, Pat.pvar "?dest".data,
        Pat.pnode "Num".data [Pat.pvar "?c2".data]]) a2
        [("?dest".data, SubstVal.one d), ("?src".data, SubstVal.one s),
         ("?c1".data, SubstVal.one c1)] := by
    rw [matchPat]
    refine List.mem_flatMap.mpr ⟨("addi".data, [d, d, n2]), h2, ?_⟩
    rw [if_pos rfl]
    exact mem_matchList_cons hrep (mem_matchList_cons hrep
      (mem_matchList_cons hσ4 (List.mem_singleton.mpr rfl)))
  constructor
  · rw [show foldAddiSubiLhs = Pat.pseq seqStr none
        [Pat.pnode "addi".data [Pat.pvar "?dest".data, Pat.pvar "?src".data,
           Pat.pnode "Num".data [Pat.pvar "?c1".data]],
         Pat.pnode "addi".data [Pat.pvar "?dest".data, Pat.pvar "?dest".data,
           Pat.pnode "Num".data [Pat.pvar "?c2".data]]]
        (some "?rest*".data) from rfl]
    refine matchPat_pseq_mem hseq 0 ?_ ?_
    · rw [show (List.length [Pat.pnode "addi".data [Pat.pvar "?dest".data, Pat.pvar "?src".data,
           Pat.pnode "Num".data [Pat.pvar "?c1".data]],
         Pat.pnode "addi".data [Pat.pvar "?dest".data, Pat.pvar "?dest".data,
           Pat.pnode "Num".data [Pat.pvar "?c2".data]]]) = 2 from rfl]
      rw [splitPositions_noLead _ (by simp)]
      exact List.mem_singleton.mpr rfl
    · refine List.mem_flatMap.mpr
        ⟨[("?dest".data, SubstVal.one d), ("?src".data, SubstVal.one s),
          ("?c1".data, SubstVal.one c1), ("?c2".data, SubstVal.one c2)], ?_, ?_⟩
      · exact mem_matchList_cons hm1 (mem_matchList_cons hm2 (List.mem_singleton.mpr rfl))
      · exact List.mem_singleton.mpr rfl
  · show some (addNode g (seqStr, (rest ++ []) ++ [])) = _
    rw [List.append_nil, List.append_nil]

/-- Witness for C5: the concrete sequence
`(seq (addi t0 t1 (Num 5)) (addi t0 t0 (Num 3)))` — 3 is not the negation
of 5, yet the rule matches and rewrites the whole pair away, leaving
`(seq)`. -/
theorem fold_addi_then_subi_witness :
    foldAddiSubiSubst 0 1 2 4 [] ∈ matchPat gFoldWitness foldAddiSubiLhs 8 []
    ∧ instPat gFoldWitness (foldAddiSubiSubst 0 1 2 4 []) foldAddiSubiRhs =
        some (addNode gFoldWitness (seqStr, [])) :=
  fold_addi_then_subi_unconditional gFoldWitness 8 6 7 0 1 3 5 2 4 []
    (by decide) (by decide) (by decide) (by decide) (by decide)

/-! ### C1, C7, C8: what `main` does before the engine ever runs -/

/--
C1 counterexample: the claim quantifies over every input file content, but
for content that does not parse as a `RiscvLang` term (here `"("`), `main`
panics earlier — at the input-parse `unwrap` — and never reaches rule-table
construction.
-/
theorem main_panics_counterexample :
    (mainRun "(".data).1 = Outcome.panic PanicSite.inputParse
    ∧ Stage.buildTable ∉ (mainRun "(".data).2 := by
  refine ⟨rfl, ?_⟩
  decide

/--
C1 (amended): for every input file content that parses as a `RiscvLang`
term, `main` panics while constructing the rewrite-rule table, before any
saturation, extraction, or writing of output: the pattern sub-terms
`(Num ?c1)`, `(Num ?c2)` and `(Num (+ ?c1 ?c2))` of `fold-consecutive-addi`
and `fold-addi-then-subi` are not parseable terms of `RiscvLang` (no
variant accepts operator `Num` or `+` with children), and `rw!` unwraps the
pattern parse at runtime.  (For content that does not parse, the panic
happens earlier, at input parsing.)
-/
theorem main_panics_at_rule_table :
    parsePattern
        "(seq (addi ?dest ?src (Num ?c1)) (addi ?dest ?dest (Num ?c2)) ?rest*)".data = none
    ∧ parsePattern "(seq (addi ?dest ?src (Num (+ ?c1 ?c2))) ?rest*)".data = none
    ∧ riscvAccepts "Num".data 1 = false
    ∧ riscvAccepts "+".data 2 = false
    ∧ buildRules = none
    ∧ ∀ (content : Str) (t : Term), parseRecExpr content = some t →
        mainRun content = (Outcome.panic PanicSite.ruleTable,
          [Stage.readInput, Stage.parseInput, Stage.buildTable]) := by
  refine ⟨rfl, rfl, rfl, rfl, rfl, ?_⟩
  intro content t hp
  unfold mainRun
  rw [hp]
  rfl

/-- Witness for the amended C1: the parseable content `"nop"` panics at the
rule-table stage. -/
theorem main_panics_witness :
    mainRun "nop".data = (Outcome.panic PanicSite.ruleTable,
      [Stage.readInput, Stage.parseInput, Stage.buildTable]) :=
  main_panics_at_rule_table.2.2.2.2.2 "nop".data (Term.node "nop".data []) rfl

/--
C8: malformed rule declarations are detected eagerly — during rule-table
construction — and are fatal, before any saturation work begins: the
saturation stage of `main` is reachable only after the whole rule table was
built, and a run that dies with the rule-table panic never reached
saturation.
-/
theorem config_errors_eager :
    (∀ content : Str, Stage.saturate ∈ (mainRun content).2 → buildRules ≠ none)
    ∧ ∀ content : Str, (mainRun content).1 = Outcome.panic PanicSite.ruleTable →
        Stage.saturate ∉ (mainRun content).2 := by
  constructor
  · intro content hsat
    exfalso
    revert hsat
    unfold mainRun
    cases hp : parseRecExpr content with
    | none =>
      show Stage.saturate ∈ [Stage.readInput, Stage.parseInput] → False
      decide
    | some t =>
      rw [show buildRules = none from rfl]
      show Stage.saturate ∈ [Stage.readInput, Stage.parseInput, Stage.buildTable] → False
      decide
  · intro content _
    unfold mainRun
    cases hp : parseRecExpr content with
    | none =>
      show Stage.saturate ∉ [Stage.readInput, Stage.parseInput]
      decide
    | some t =>
      rw [show buildRules = none from rfl]
      show Stage.saturate ∉ [Stage.readInput, Stage.parseInput, Stage.buildTable]
      decide

/-- Witness for C8: the run on `"nop"` dies with the rule-table panic and
its stage trace has no saturation stage. -/
theorem config_errors_eager_witness :
    Stage.saturate ∉ (mainRun "nop".data).2 :=
  config_errors_eager.2 "nop".data rfl

/--
C7 counterexample: a parse/shape mismatch of the input program text does
not surface to the caller as a typed result — on the unparseable content
`""`, `main` panics at the input-parse `unwrap` instead of returning an
error value.
-/
theorem typed_errors_counterexample :
    (mainRun "".data).1 = Outcome.panic PanicSite.inputParse
    ∧ ∀ out : Str, (mainRun "".data).1 ≠ Outcome.ok out := by
  refine ⟨rfl, ?_⟩
  intro out h
  rw [show (mainRun "".data).1 = Outcome.panic PanicSite.inputParse from rfl] at h
  cases h

/--
C7 (amended): an input parse/shape mismatch is fatal but untyped: `main`
panics via `unwrap` at the parse stage — it neither returns a typed error
value nor produces silent empty output.
-/
theorem parse_mismatch_panics (content : Str) (h : parseRecExpr content = none) :
    mainRun content = (Outcome.panic PanicSite.inputParse, [Stage.readInput, Stage.parseInput])
    ∧ ∀ out : Str, (mainRun content).1 ≠ Outcome.ok out := by
  have hm : mainRun content =
      (Outcome.panic PanicSite.inputParse, [Stage.readInput, Stage.parseInput]) := by
    unfold mainRun
    rw [h]
  refine ⟨hm, ?_⟩
  intro out hc
  rw [hm] at hc
  cases hc

/-- Witness for the amended C7 at the unparseable content `"("`. -/
theorem parse_mismatch_panics_witness :
    mainRun "(".data = (Outcome.panic PanicSite.inputParse, [Stage.readInput, Stage.parseInput])
    ∧ ∀ out : Str, (mainRun "(".data).1 ≠ Outcome.ok out :=
  parse_mismatch_panics "(".data rfl

/-! ### C3: what `sub-same` really does on `(sub t0 t1 t1)` -/

/--
C3 counterexample: the scenario's expected result `li(t0,0)` does not
exist in this program — `li` is not an operator of `RiscvLang` (no variant
accepts it with two children), `(li t0 0)` is not even a parseable term,
and the saturated e-graph for input `(sub t0 t1 t1)` under the program's
rule table does not represent it at the root class.
-/
theorem sub_same_li_counterexample :
    riscvAccepts "li".data 2 = false
    ∧ parseRecExpr "(li t0 0)".data = none
    ∧ reprB (runSat ruleTableFace tSubT0T1T1).1 tLiT0Zero
        (runSat ruleTableFace tSubT0T1T1).2 = false := by
  exact ⟨rfl, rfl, rfl⟩

/--
C3 (amended): on the input `(sub t0 t1 t1)` (which parses to `tSubT0T1T1`)
with the program's rule table, the rule `sub-same` rewrites the root to
`(addi t0 x0 0)` — the root class represents it after saturation; the run
terminates at a fixpoint (one more round changes nothing) rather than
looping; and extraction yields minimum cost 4, the size of both members of
the root class.
-/
theorem sub_same_rewrite :
    parseRecExpr "(sub t0 t1 t1)".data = some tSubT0T1T1
    ∧ reprB (runSat ruleTableFace tSubT0T1T1).1 tAddiT0X0Zero
        (runSat ruleTableFace tSubT0T1T1).2 = true
    ∧ roundS ruleTableFace (runSat ruleTableFace tSubT0T1T1) = runSat ruleTableFace tSubT0T1T1
    ∧ pipelineCost ruleTableFace tSubT0T1T1 = some 4
    ∧ astSize tSubT0T1T1 = 4 := by
  exact ⟨rfl, rfl, rfl, rfl, rfl⟩

/-! ### C10: when the `remove_nops` post-pass panics -/

theorem startsWith_ex {s p : Str} (h : startsWith s p = true) : ∃ t, s = p ++ t := by
  unfold startsWith at h
  induction p generalizing s with
  | nil => exact ⟨s, rfl⟩
  | cons c p ih =>
    cases s with
    | nil => cases h
    | cons a s2 =>
      rw [List.isPrefixOf_cons₂] at h
      rw [Bool.and_eq_true] at h
      obtain ⟨t, ht⟩ := ih h.2
      refine ⟨t, ?_⟩
      rw [show a = c from (eq_of_beq h.1).symm, List.cons_append, ht]

theorem startsWith_append (p u : Str) : startsWith (p ++ u) p = true := by
  unfold startsWith
  induction p with
  | nil => exact List.isPrefixOf_nil_left
  | cons c p ih =>
    rw [List.cons_append, List.isPrefixOf_cons₂, Bool.and_eq_true]
    exact ⟨beq_self_eq_true c, ih⟩

theorem trimEnd_seqOpen (t : Str) : ∃ u, trimEnd (seqOpen ++ t) = seqOpen ++ u := by
  unfold trimEnd
  rw [List.reverse_append, List.dropWhile_append]
  by_cases he : (t.reverse.dropWhile isWs).isEmpty = true
  · rw [if_pos he]
    refine ⟨[], ?_⟩
    rw [show (seqOpen.reverse.dropWhile isWs) = seqOpen.reverse from rfl, List.reverse_reverse]
    simp
  · rw [if_neg he]
    refine ⟨(t.reverse.dropWhile isWs).reverse, ?_⟩
    rw [List.reverse_append, List.reverse_reverse]

theorem trimStr_seqOpen (t : Str) : ∃ u, trimStr (seqOpen ++ t) = seqOpen ++ u := by
  unfold trimStr
  rw [show trimStart (seqOpen ++ t) = seqOpen ++ t from rfl]
  exact trimEnd_seqOpen t

theorem nopStep_inv {st : NopState} {line : Str} {st2 : NopState}
    (hinv : NopInv st) (h : nopStep st line = some st2) : NopInv st2 := by
  unfold nopStep at h
  by_cases h1 : trimStr line = nopStr
  · rw [if_pos h1] at h
    cases h
    exact hinv
  · rw [if_neg h1] at h
    by_cases h2 : startsWith (trimStr line) seqOpen = true
    · rw [if_pos h2] at h
      cases h
      constructor
      · intro _
        cases hs : st.inSeq with
        | true =>
          obtain ⟨t0, ht0⟩ := hinv.1 hs
          exact ⟨t0 ++ trimStr line ++ [' '], by rw [ht0]; simp⟩
        | false =>
          obtain ⟨t2, ht2⟩ := startsWith_ex h2
          refine ⟨t2 ++ [' '], ?_⟩
          rw [hinv.2 hs, ht2]
          simp
      · intro hfalse
        cases hfalse
    · rw [if_neg h2] at h
      by_cases h3 : st.inSeq = true
      · rw [if_pos h3] at h
        by_cases h4 : st.openParens + countChar (trimStr line) '(' -
            countChar (trimStr line) ')' = 0
        · rw [if_pos h4] at h
          cases hc : clean_sequence (st.seqBuffer ++ trimStr line ++ [' ']) with
          | none => rw [hc] at h; cases h
          | some cseq =>
            rw [hc] at h
            cases h
            exact ⟨fun hf => Bool.noConfusion hf, fun _ => rfl⟩
        · rw [if_neg h4] at h
          cases h
          refine ⟨fun _ => ?_, fun hf => absurd (h3.symm.trans hf) (by decide)⟩
          obtain ⟨t0, ht0⟩ := hinv.1 h3
          exact ⟨t0 ++ trimStr line ++ [' '], by rw [ht0]; simp⟩
      · rw [if_neg h3] at h
        cases h
        exact hinv

theorem foldlM_nopStep_inv : ∀ (lines : List Str) (st : NopState), NopInv st →
    ∀ st2, List.foldlM nopStep st lines = some st2 → NopInv st2
  | [], st, hinv, st2, h => by
    cases h
    exact hinv
  | l :: ls, st, hinv, st2, h => by
    rw [List.foldlM_cons] at h
    cases hstep : nopStep st l with
    | none => rw [hstep] at h; cases h
    | some stm =>
      rw [hstep] at h
      exact foldlM_nopStep_inv ls stm (nopStep_inv hinv hstep) st2 h

theorem initNopInv : NopInv initNopState := ⟨fun h => Bool.noConfusion h, fun _ => rfl⟩

/--
C10 (amended): when the `remove_nops` loop reaches the end of the input
with a sequence still open (`in_seq` true) the buffered sequence is passed
to `clean_sequence`; its first assertion (`starts_with "(seq"`) always
holds by the loop invariant, and `remove_nops` panics exactly when the
trimmed buffer does not end with `')'` — which an unbalanced input can
avoid, so not every unbalanced `(seq` input panics.
-/
theorem remove_nops_unterminated_panic (input : Str) (st : NopState)
    (hrun : processLines (linesOf input) = some st)
    (hseq : st.inSeq = true)
    (hend : endsWith (trimStr st.seqBuffer) [')'] = false) :
    startsWith (trimStr st.seqBuffer) seqOpen = true ∧ remove_nops input = none := by
  have hinv : NopInv st := foldlM_nopStep_inv (linesOf input) initNopState initNopInv st hrun
  obtain ⟨t, ht⟩ := hinv.1 hseq
  have hstarts : startsWith (trimStr st.seqBuffer) seqOpen = true := by
    rw [ht]
    obtain ⟨u, hu⟩ := trimStr_seqOpen t
    rw [hu]
    exact startsWith_append _ _
  refine ⟨hstarts, ?_⟩
  have hclean : clean_sequence st.seqBuffer = none := by
    unfold clean_sequence
    rw [if_neg (not_not_intro hstarts)]
    rw [if_pos (by rw [hend]; exact fun hc => Bool.noConfusion hc)]
  unfold remove_nops
  rw [show processLines (linesOf input) = some st from hrun]
  show (if st.inSeq = true then
      (clean_sequence st.seqBuffer).bind fun c =>
        some (joinWith ['\n'] (st.cleanedLines ++ [c]))
    else some (joinWith ['\n'] st.cleanedLines)) = none
  rw [if_pos hseq, hclean]
  rfl

/--
C10 counterexample: the single-line input `"(seq (nop)"` contains a line
whose trimmed text starts with `"(seq"` and whose parentheses are never
balanced by the end of the input (the final open-parenthesis count is 1 and
the sequence is still open), yet `remove_nops` returns normally — the
buffered text happens to end with `')'`, so neither assertion of
`clean_sequence` fires.
-/
theorem remove_nops_counterexample :
    startsWith (trimStr "(seq (nop)".data) seqOpen = true
    ∧ (processLines (linesOf "(seq (nop)".data)).map NopState.openParens = some 1
    ∧ (processLines (linesOf "(seq (nop)".data)).map NopState.inSeq = some true
    ∧ remove_nops "(seq (nop)".data = some "(seq (nop)".data := by
  exact ⟨rfl, rfl, rfl, rfl⟩

/-- Witness for the amended C10: the input `"(seq"` leaves the sequence
open with a buffer not ending in `')'`, and `remove_nops` panics. -/
theorem remove_nops_unterminated_witness :
    remove_nops "(seq".data = none :=
  (remove_nops_unterminated_panic "(seq".data ⟨[], "(seq ".data, true, 1⟩ rfl rfl rfl).2

end MipsOpt
